import Mathlib

/-!
Verification of the deterministic core of the academicevalapp repository:
the word-level diff (`computeWordDiff` in `server/routes.ts`) and the
readability analyzer (`analyzeReadability` in `server/readability.ts`).

JavaScript strings are modelled as Lean `String` (lists of characters),
JavaScript numbers as rationals, and the regular expressions that appear in
the source are embedded as explicit character-list matchers that follow the
semantics of the concrete regex literals used by the code.  Recursions that
the source expresses with index arithmetic are given a structurally
recursive form (using an explicit fuel argument where needed) so that every
definition evaluates inside the kernel; fuel-irrelevance lemmas recover the
recurrences of the source.
-/

namespace AcademicEval

/-- Characters matched by the JavaScript regex class `\s`. -/
def jsWS (c : Char) : Bool :=
  c = ' ' || c = Char.ofNat 9 || c = Char.ofNat 10 || c = Char.ofNat 11 ||
  c = Char.ofNat 12 || c = Char.ofNat 13 || c = Char.ofNat 0xa0 ||
  c = Char.ofNat 0x1680 || (0x2000 ≤ c.toNat && c.toNat ≤ 0x200a) ||
  c = Char.ofNat 0x2028 || c = Char.ofNat 0x2029 || c = Char.ofNat 0x202f ||
  c = Char.ofNat 0x205f || c = Char.ofNat 0x3000 || c = Char.ofNat 0xfeff

/-- Characters matched by the JavaScript regex class `\w`. -/
def isWordChar (c : Char) : Bool :=
  ('a' ≤ c && c ≤ 'z') || ('A' ≤ c && c ≤ 'Z') || ('0' ≤ c && c ≤ '9') || c = '_'

/-- Characters matched by the JavaScript regex class `[a-zA-Z]`. -/
def isAsciiLetter (c : Char) : Bool :=
  ('a' ≤ c && c ≤ 'z') || ('A' ≤ c && c ≤ 'Z')

/-- Characters matched by the JavaScript regex class `[0-9]` / `\d`. -/
def isDigit (c : Char) : Bool := '0' ≤ c && c ≤ '9'

/-- Characters matched by the JavaScript regex class `[A-Z0-9]`. -/
def isCapDigit (c : Char) : Bool := ('A' ≤ c && c ≤ 'Z') || ('0' ≤ c && c ≤ '9')

/-- ASCII lower-casing, the canonicalisation applied by a non-unicode
JavaScript regex `i` flag to the ASCII patterns occurring in the source. -/
def lowerC (c : Char) : Char :=
  if 'A' ≤ c && c ≤ 'Z' then Char.ofNat (c.toNat + 32) else c

/-- Concatenation of a list of character runs. -/
def joinL (l : List (List Char)) : List Char := l.foldr (fun a b => a ++ b) []

/-- `s.split(/(\s+)/)`: split a string into the alternating sequence of
(non-whitespace, whitespace, non-whitespace, ...) runs, keeping the
whitespace runs, with possibly empty runs at either end.  This is the
tokenisation used by `computeWordDiff`. -/
def splitTokens : List Char → List (List Char)
  | [] => [[]]
  | c :: cs =>
    let r := splitTokens cs
    if jsWS c then
      match r with
      | [] :: w :: rest => [] :: (c :: w) :: rest
      | _ => [] :: [c] :: r
    else
      match r with
      | t :: rest => (c :: t) :: rest
      | [] => [[c]]

/-- `s.split(/\s+/)`: the non-whitespace chunks (the separators dropped). -/
def splitOnWS (cs : List Char) : List (List Char) :=
  (splitTokens cs).filter (fun t => !t.any jsWS)

/-- The three segment kinds of `DiffSegment` in `shared/schema`. -/
inductive SegType where
  | equal
  | added
  | removed
deriving DecidableEq, Repr

/-- A diff segment over raw character runs (the internal form). -/
structure CSeg where
  type : SegType
  text : List Char
deriving DecidableEq, Repr

/-- The `DiffSegment` record of `shared/schema`. -/
structure DiffSegment where
  type : SegType
  text : String
deriving DecidableEq, Repr

/-- Fueled form of the LCS dynamic-programming table of `computeWordDiff`;
the fuel only enables structural recursion and is irrelevant whenever it is
at least `i + j` (`lcsDPF_irrel`). -/
def lcsDPF (xs ys : List (List Char)) : Nat → Nat → Nat → Nat
  | _, 0, _ => 0
  | _, _ + 1, 0 => 0
  | 0, _ + 1, _ + 1 => 0
  | fuel + 1, i + 1, j + 1 =>
    if xs.getD i [] = ys.getD j [] then lcsDPF xs ys fuel i j + 1
    else max (lcsDPF xs ys fuel i (j + 1)) (lcsDPF xs ys fuel (i + 1) j)

/-- The LCS table `dp` built by `computeWordDiff`: `lcsDP xs ys i j` is
`dp[i][j]`, the LCS length of the first `i` tokens of `xs` and the first
`j` tokens of `ys`. -/
def lcsDP (xs ys : List (List Char)) (i j : Nat) : Nat := lcsDPF xs ys (i + j) i j

theorem lcsDPF_irrel (xs ys : List (List Char)) :
    ∀ f1 f2 i j, i + j ≤ f1 → i + j ≤ f2 →
      lcsDPF xs ys f1 i j = lcsDPF xs ys f2 i j := by
  intro f1
  induction f1 with
  | zero =>
    intro f2 i j h1 h2
    match i, j with
    | 0, j => simp [lcsDPF]
    | i + 1, 0 => simp [lcsDPF]
  | succ f1 ih =>
    intro f2 i j h1 h2
    match i, j with
    | 0, j => simp [lcsDPF]
    | i + 1, 0 => simp [lcsDPF]
    | i + 1, j + 1 =>
      match f2, h2 with
      | f2 + 1, h2 =>
        show (if xs.getD i [] = ys.getD j [] then lcsDPF xs ys f1 i j + 1
            else max (lcsDPF xs ys f1 i (j + 1)) (lcsDPF xs ys f1 (i + 1) j)) =
          (if xs.getD i [] = ys.getD j [] then lcsDPF xs ys f2 i j + 1
            else max (lcsDPF xs ys f2 i (j + 1)) (lcsDPF xs ys f2 (i + 1) j))
        rw [ih f2 i j (by omega) (by omega),
          ih f2 i (j + 1) (by omega) (by omega),
          ih f2 (i + 1) j (by omega) (by omega)]

theorem lcsDP_zero_left (xs ys : List (List Char)) (j : Nat) :
    lcsDP xs ys 0 j = 0 := by simp [lcsDP, lcsDPF]

theorem lcsDP_succ_zero (xs ys : List (List Char)) (i : Nat) :
    lcsDP xs ys (i + 1) 0 = 0 := by simp [lcsDP, lcsDPF]

theorem lcsDP_succ_succ (xs ys : List (List Char)) (i j : Nat) :
    lcsDP xs ys (i + 1) (j + 1) =
      if xs.getD i [] = ys.getD j [] then lcsDP xs ys i j + 1
      else max (lcsDP xs ys i (j + 1)) (lcsDP xs ys (i + 1) j) := by
  show lcsDPF xs ys (i + 1 + (j + 1)) (i + 1) (j + 1) = _
  rw [show i + 1 + (j + 1) = (i + j + 1) + 1 from by omega]
  show (if xs.getD i [] = ys.getD j [] then lcsDPF xs ys (i + j + 1) i j + 1
      else max (lcsDPF xs ys (i + j + 1) i (j + 1))
        (lcsDPF xs ys (i + j + 1) (i + 1) j)) = _
  rw [lcsDPF_irrel xs ys (i + j + 1) (i + j) i j (by omega) (by omega),
    lcsDPF_irrel xs ys (i + j + 1) (i + (j + 1)) i (j + 1) (by omega) (by omega),
    lcsDPF_irrel xs ys (i + j + 1) (i + 1 + j) (i + 1) j (by omega) (by omega)]
  rfl

/-- Fueled form of the backtracking loop of `computeWordDiff`; the fuel is
irrelevant whenever it is at least `i + j` (`backtrackF_irrel`). -/
def backtrackF (xs ys : List (List Char)) : Nat → Nat → Nat → List CSeg
  | _, 0, 0 => []
  | 0, _, _ => []
  | fuel + 1, 0, j + 1 => backtrackF xs ys fuel 0 j ++ [⟨SegType.added, ys.getD j []⟩]
  | fuel + 1, i + 1, 0 => backtrackF xs ys fuel i 0 ++ [⟨SegType.removed, xs.getD i []⟩]
  | fuel + 1, i + 1, j + 1 =>
    if xs.getD i [] = ys.getD j [] then
      backtrackF xs ys fuel i j ++ [⟨SegType.equal, xs.getD i []⟩]
    else if lcsDP xs ys i (j + 1) ≤ lcsDP xs ys (i + 1) j then
      backtrackF xs ys fuel (i + 1) j ++ [⟨SegType.added, ys.getD j []⟩]
    else
      backtrackF xs ys fuel i (j + 1) ++ [⟨SegType.removed, xs.getD i []⟩]

/-- The backtracking loop of `computeWordDiff`, producing the edit script in
original order (the source builds it with `unshift`; appending on the way
out of the recursion produces the same order).  On a tie
`dp[i][j-1] >= dp[i-1][j]` the source prefers emitting an `added` token. -/
def backtrack (xs ys : List (List Char)) (i j : Nat) : List CSeg :=
  backtrackF xs ys (i + j) i j

theorem backtrackF_irrel (xs ys : List (List Char)) :
    ∀ f1 f2 i j, i + j ≤ f1 → i + j ≤ f2 →
      backtrackF xs ys f1 i j = backtrackF xs ys f2 i j := by
  intro f1
  induction f1 with
  | zero =>
    intro f2 i j h1 h2
    have hi0 : i = 0 := by omega
    have hj0 : j = 0 := by omega
    subst hi0
    subst hj0
    cases f2 <;> rfl
  | succ f1 ih =>
    intro f2 i j h1 h2
    match i, j with
    | 0, 0 => cases f2 <;> rfl
    | 0, j + 1 =>
      match f2, h2 with
      | f2 + 1, h2 =>
        show backtrackF xs ys f1 0 j ++ _ = backtrackF xs ys f2 0 j ++ _
        rw [ih f2 0 j (by omega) (by omega)]
    | i + 1, 0 =>
      match f2, h2 with
      | f2 + 1, h2 =>
        show backtrackF xs ys f1 i 0 ++ _ = backtrackF xs ys f2 i 0 ++ _
        rw [ih f2 i 0 (by omega) (by omega)]
    | i + 1, j + 1 =>
      match f2, h2 with
      | f2 + 1, h2 =>
        show (if xs.getD i [] = ys.getD j [] then
              backtrackF xs ys f1 i j ++ _
            else if lcsDP xs ys i (j + 1) ≤ lcsDP xs ys (i + 1) j then
              backtrackF xs ys f1 (i + 1) j ++ _
            else backtrackF xs ys f1 i (j + 1) ++ _) = _
        rw [ih f2 i j (by omega) (by omega),
          ih f2 (i + 1) j (by omega) (by omega),
          ih f2 i (j + 1) (by omega) (by omega)]
        rfl

theorem backtrack_zero_zero (xs ys : List (List Char)) :
    backtrack xs ys 0 0 = [] := rfl

theorem backtrack_zero_succ (xs ys : List (List Char)) (j : Nat) :
    backtrack xs ys 0 (j + 1) =
      backtrack xs ys 0 j ++ [⟨SegType.added, ys.getD j []⟩] := by
  show backtrackF xs ys (0 + (j + 1)) 0 (j + 1) = _
  rw [show 0 + (j + 1) = j + 1 from by omega]
  show backtrackF xs ys j 0 j ++ _ = _
  rw [backtrackF_irrel xs ys j (0 + j) 0 j (by omega) (by omega)]
  rfl

theorem backtrack_succ_zero (xs ys : List (List Char)) (i : Nat) :
    backtrack xs ys (i + 1) 0 =
      backtrack xs ys i 0 ++ [⟨SegType.removed, xs.getD i []⟩] := by
  show backtrackF xs ys (i + 1 + 0) (i + 1) 0 = _
  rw [show i + 1 + 0 = i + 1 from by omega]
  show backtrackF xs ys i i 0 ++ _ = _
  rw [backtrackF_irrel xs ys i (i + 0) i 0 (by omega) (by omega)]
  rfl

theorem backtrack_succ_succ (xs ys : List (List Char)) (i j : Nat) :
    backtrack xs ys (i + 1) (j + 1) =
      if xs.getD i [] = ys.getD j [] then
        backtrack xs ys i j ++ [⟨SegType.equal, xs.getD i []⟩]
      else if lcsDP xs ys i (j + 1) ≤ lcsDP xs ys (i + 1) j then
        backtrack xs ys (i + 1) j ++ [⟨SegType.added, ys.getD j []⟩]
      else
        backtrack xs ys i (j + 1) ++ [⟨SegType.removed, xs.getD i []⟩] := by
  show backtrackF xs ys (i + 1 + (j + 1)) (i + 1) (j + 1) = _
  rw [show i + 1 + (j + 1) = (i + j + 1) + 1 from by omega]
  show (if xs.getD i [] = ys.getD j [] then
        backtrackF xs ys (i + j + 1) i j ++ _
      else if lcsDP xs ys i (j + 1) ≤ lcsDP xs ys (i + 1) j then
        backtrackF xs ys (i + j + 1) (i + 1) j ++ _
      else backtrackF xs ys (i + j + 1) i (j + 1) ++ _) = _
  rw [backtrackF_irrel xs ys (i + j + 1) (i + j) i j (by omega) (by omega),
    backtrackF_irrel xs ys (i + j + 1) (i + 1 + j) (i + 1) j (by omega) (by omega),
    backtrackF_irrel xs ys (i + j + 1) (i + (j + 1)) i (j + 1) (by omega) (by omega)]
  rfl

/-- The merging loop of `computeWordDiff` with the last pushed segment held
in an accumulator, exactly as the source's `segments` array behaves. -/
def coalesceAux (acc : CSeg) : List CSeg → List CSeg
  | [] => [acc]
  | g :: rest =>
    if acc.type = g.type then coalesceAux ⟨acc.type, acc.text ++ g.text⟩ rest
    else acc :: coalesceAux g rest

/-- The final merging loop of `computeWordDiff`: adjacent operations of the
same type are coalesced into one segment. -/
def coalesce : List CSeg → List CSeg
  | [] => []
  | g :: rest => coalesceAux g rest

/-- `computeWordDiff` over raw character lists. -/
def wordDiffC (original suggested : List Char) : List CSeg :=
  let xs := splitTokens original
  let ys := splitTokens suggested
  coalesce (backtrack xs ys xs.length ys.length)

/-- `computeWordDiff` from `server/routes.ts`. -/
def computeWordDiff (original suggested : String) : List DiffSegment :=
  (wordDiffC original.data suggested.data).map (fun g => ⟨g.type, String.mk g.text⟩)

/-- Concatenation of the text of all segments whose type is equal or removed. -/
def restoreOriginal (segs : List DiffSegment) : String :=
  ((segs.filter (fun g => g.type != SegType.added)).map DiffSegment.text).foldr
    (fun a b => a ++ b) ""

/-- Concatenation of the text of all segments whose type is equal or added. -/
def restoreModified (segs : List DiffSegment) : String :=
  ((segs.filter (fun g => g.type != SegType.removed)).map DiffSegment.text).foldr
    (fun a b => a ++ b) ""

theorem joinL_append (a b : List (List Char)) :
    joinL (a ++ b) = joinL a ++ joinL b := by
  induction a with
  | nil => rfl
  | cons t ts ih => simp [joinL, List.foldr_cons] at ih ⊢; simp [ih]

theorem splitTokens_join (cs : List Char) : joinL (splitTokens cs) = cs := by
  induction cs with
  | nil => rfl
  | cons c cs ih =>
    rw [splitTokens]
    by_cases h : jsWS c = true
    · simp only [h, if_true]
      match hr : splitTokens cs with
      | [] :: w :: rest =>
        rw [hr] at ih
        simp only [joinL, List.foldr_cons] at ih ⊢
        simpa using ih
      | [] =>
        rw [hr] at ih
        simp only [joinL] at ih ⊢
        simp [← ih]
      | (c' :: t) :: rest =>
        rw [hr] at ih
        simp only [joinL, List.foldr_cons] at ih ⊢
        simpa using ih
      | [[]] =>
        rw [hr] at ih
        simp only [joinL, List.foldr_cons] at ih ⊢
        simpa using ih
    · simp only [h, if_false]
      match hr : splitTokens cs with
      | t :: rest =>
        rw [hr] at ih
        simp only [joinL, List.foldr_cons] at ih ⊢
        simpa using ih
      | [] =>
        rw [hr] at ih
        simp only [joinL] at ih ⊢
        simp [← ih]

/-- Concatenation of the texts of the segments kept by a predicate. -/
def keepJoin (p : CSeg → Bool) (l : List CSeg) : List Char :=
  joinL ((l.filter p).map CSeg.text)

theorem keepJoin_nil (p : CSeg → Bool) : keepJoin p [] = [] := rfl

theorem keepJoin_cons (p : CSeg → Bool) (g : CSeg) (l : List CSeg) :
    keepJoin p (g :: l) = (if p g then g.text else []) ++ keepJoin p l := by
  simp only [keepJoin, List.filter_cons]
  split <;> simp [joinL]

theorem keepJoin_append_single (p : CSeg → Bool) (l : List CSeg) (g : CSeg) :
    keepJoin p (l ++ [g]) = keepJoin p l ++ (if p g then g.text else []) := by
  simp only [keepJoin, List.filter_append, List.map_append, joinL_append]
  congr 1
  simp only [List.filter_cons, List.filter_nil]
  split <;> simp [joinL]

theorem take_succ_getD (l : List (List Char)) (i : Nat) (h : i < l.length) :
    l.take (i + 1) = l.take i ++ [l.getD i []] := by
  induction l generalizing i with
  | nil => simp at h
  | cons a l ih =>
    cases i with
    | zero => simp
    | succ i =>
      simp only [List.length_cons, Nat.succ_lt_succ_iff] at h
      simp [List.take_succ_cons, ih i h]

theorem backtrack_keep_orig (xs ys : List (List Char)) :
    ∀ n i j, i + j ≤ n → i ≤ xs.length → j ≤ ys.length →
      keepJoin (fun g => g.type != SegType.added) (backtrack xs ys i j) =
        joinL (xs.take i) := by
  intro n
  induction n with
  | zero =>
    intro i j hn hi hj
    have hi0 : i = 0 := by omega
    have hj0 : j = 0 := by omega
    subst hi0
    subst hj0
    simp [backtrack_zero_zero, keepJoin, joinL]
  | succ n ih =>
    intro i j hn hi hj
    match i, j with
    | 0, 0 => simp [backtrack_zero_zero, keepJoin, joinL]
    | 0, j + 1 =>
      rw [backtrack_zero_succ, keepJoin_append_single]
      simpa using ih 0 j (by omega) hi (Nat.le_of_succ_le hj)
    | i + 1, 0 =>
      rw [backtrack_succ_zero, keepJoin_append_single]
      have hi' : i < xs.length := hi
      rw [ih i 0 (by omega) (Nat.le_of_succ_le hi) hj, take_succ_getD xs i hi',
        joinL_append]
      simp [joinL]
    | i + 1, j + 1 =>
      rw [backtrack_succ_succ]
      by_cases heq : xs.getD i [] = ys.getD j []
      · rw [if_pos heq, keepJoin_append_single]
        have hi' : i < xs.length := hi
        rw [ih i j (by omega) (Nat.le_of_succ_le hi) (Nat.le_of_succ_le hj),
          take_succ_getD xs i hi', joinL_append]
        simp [joinL]
      · rw [if_neg heq]
        by_cases hle : lcsDP xs ys i (j + 1) ≤ lcsDP xs ys (i + 1) j
        · rw [if_pos hle, keepJoin_append_single]
          simpa using ih (i + 1) j (by omega) hi (Nat.le_of_succ_le hj)
        · rw [if_neg hle, keepJoin_append_single]
          have hi' : i < xs.length := hi
          rw [ih i (j + 1) (by omega) (Nat.le_of_succ_le hi) hj,
            take_succ_getD xs i hi', joinL_append]
          simp [joinL]

theorem backtrack_keep_mod (xs ys : List (List Char)) :
    ∀ n i j, i + j ≤ n → i ≤ xs.length → j ≤ ys.length →
      keepJoin (fun g => g.type != SegType.removed) (backtrack xs ys i j) =
        joinL (ys.take j) := by
  intro n
  induction n with
  | zero =>
    intro i j hn hi hj
    have hi0 : i = 0 := by omega
    have hj0 : j = 0 := by omega
    subst hi0
    subst hj0
    simp [backtrack_zero_zero, keepJoin, joinL]
  | succ n ih =>
    intro i j hn hi hj
    match i, j with
    | 0, 0 => simp [backtrack_zero_zero, keepJoin, joinL]
    | 0, j + 1 =>
      rw [backtrack_zero_succ, keepJoin_append_single]
      have hj' : j < ys.length := hj
      rw [ih 0 j (by omega) hi (Nat.le_of_succ_le hj), take_succ_getD ys j hj',
        joinL_append]
      simp [joinL]
    | i + 1, 0 =>
      rw [backtrack_succ_zero, keepJoin_append_single]
      simpa using ih i 0 (by omega) (Nat.le_of_succ_le hi) hj
    | i + 1, j + 1 =>
      rw [backtrack_succ_succ]
      by_cases heq : xs.getD i [] = ys.getD j []
      · rw [if_pos heq, keepJoin_append_single]
        have hj' : j < ys.length := hj
        rw [ih i j (by omega) (Nat.le_of_succ_le hi) (Nat.le_of_succ_le hj),
          take_succ_getD ys j hj', joinL_append]
        simp only [joinL, List.foldr_cons, List.foldr_nil, List.append_nil]
        rw [heq]
        simp
      · rw [if_neg heq]
        by_cases hle : lcsDP xs ys i (j + 1) ≤ lcsDP xs ys (i + 1) j
        · rw [if_pos hle, keepJoin_append_single]
          have hj' : j < ys.length := hj
          rw [ih (i + 1) j (by omega) hi (Nat.le_of_succ_le hj),
            take_succ_getD ys j hj', joinL_append]
          simp [joinL]
        · rw [if_neg hle, keepJoin_append_single]
          simpa using ih i (j + 1) (by omega) (Nat.le_of_succ_le hi) hj

theorem coalesceAux_keepJoin (q : SegType → Bool) :
    ∀ (l : List CSeg) (acc : CSeg),
      keepJoin (fun g => q g.type) (coalesceAux acc l) =
        keepJoin (fun g => q g.type) (acc :: l) := by
  intro l
  induction l with
  | nil => intro acc; rfl
  | cons g rest ih =>
    intro acc
    rw [coalesceAux]
    by_cases h : acc.type = g.type
    · rw [if_pos h, ih ⟨acc.type, acc.text ++ g.text⟩]
      rw [keepJoin_cons, keepJoin_cons, keepJoin_cons, ← h]
      split <;> simp
    · rw [if_neg h, keepJoin_cons, keepJoin_cons, ih g]

theorem coalesce_keepJoin (q : SegType → Bool) (l : List CSeg) :
    keepJoin (fun g => q g.type) (coalesce l) = keepJoin (fun g => q g.type) l := by
  cases l with
  | nil => rfl
  | cons g rest => exact coalesceAux_keepJoin q rest g

theorem coalesceAux_head :
    ∀ (l : List CSeg) (acc : CSeg),
      ∃ t rest2, coalesceAux acc l = ⟨acc.type, t⟩ :: rest2 := by
  intro l
  induction l with
  | nil => intro acc; exact ⟨acc.text, [], rfl⟩
  | cons g rest ih =>
    intro acc
    rw [coalesceAux]
    by_cases h : acc.type = g.type
    · rw [if_pos h]
      exact ih ⟨acc.type, acc.text ++ g.text⟩
    · rw [if_neg h]
      exact ⟨acc.text, coalesceAux g rest, rfl⟩

theorem coalesceAux_alternates :
    ∀ (l : List CSeg) (acc : CSeg),
      List.Chain' (fun a b => a.type ≠ b.type) (coalesceAux acc l) := by
  intro l
  induction l with
  | nil => intro acc; simp [coalesceAux]
  | cons g rest ih =>
    intro acc
    rw [coalesceAux]
    by_cases h : acc.type = g.type
    · rw [if_pos h]
      exact ih ⟨acc.type, acc.text ++ g.text⟩
    · rw [if_neg h, List.chain'_cons']
      refine ⟨?_, ih g⟩
      intro y hy
      obtain ⟨t, rest2, hr⟩ := coalesceAux_head rest g
      rw [hr] at hy
      simp only [List.head?_cons, Option.mem_def, Option.some.injEq] at hy
      rw [← hy]
      exact h

theorem coalesce_alternates (l : List CSeg) :
    List.Chain' (fun a b => a.type ≠ b.type) (coalesce l) := by
  cases l with
  | nil => simp [coalesce]
  | cons g rest => exact coalesceAux_alternates rest g

theorem splitTokens_ne_nil (cs : List Char) : splitTokens cs ≠ [] := by
  cases cs with
  | nil => simp [splitTokens]
  | cons c cs =>
    rw [splitTokens]
    by_cases h : jsWS c = true
    · simp only [h, if_true]
      match hr : splitTokens cs with
      | [] :: w :: rest => simp
      | [] => simp
      | (c' :: t) :: rest => simp
      | [[]] => simp
    · simp only [h, if_false]
      match hr : splitTokens cs with
      | t :: rest => simp
      | [] => simp

theorem mk_append (a b : List Char) :
    String.mk a ++ String.mk b = String.mk (a ++ b) := rfl

theorem mk_data (s : String) : String.mk s.data = s := rfl

theorem foldr_append_mk (ls : List (List Char)) :
    (ls.map String.mk).foldr (fun a b => a ++ b) "" = String.mk (joinL ls) := by
  induction ls with
  | nil => rfl
  | cons a ls ih =>
    show String.mk a ++ (ls.map String.mk).foldr _ "" = _
    rw [ih, mk_append]
    rfl

theorem filter_lift (q : SegType → Bool) (l : List CSeg) :
    (l.map (fun g => (⟨g.type, String.mk g.text⟩ : DiffSegment))).filter
        (fun g => q g.type) =
      (l.filter (fun g => q g.type)).map
        (fun g => (⟨g.type, String.mk g.text⟩ : DiffSegment)) := by
  induction l with
  | nil => rfl
  | cons g l ih =>
    simp only [List.map_cons, List.filter_cons]
    by_cases h : q g.type = true
    · simp [h, ih]
    · simp [h, ih]

theorem restore_lift_orig (l : List CSeg) :
    restoreOriginal (l.map (fun g => (⟨g.type, String.mk g.text⟩ : DiffSegment))) =
      String.mk (keepJoin (fun g => g.type != SegType.added) l) := by
  unfold restoreOriginal keepJoin
  rw [filter_lift (fun t => t != SegType.added) l]
  rw [List.map_map]
  rw [show ((fun (g : DiffSegment) => g.text) ∘
      fun (g : CSeg) => (⟨g.type, String.mk g.text⟩ : DiffSegment)) =
      (String.mk ∘ CSeg.text) from rfl]
  rw [← List.map_map, foldr_append_mk]

theorem restore_lift_mod (l : List CSeg) :
    restoreModified (l.map (fun g => (⟨g.type, String.mk g.text⟩ : DiffSegment))) =
      String.mk (keepJoin (fun g => g.type != SegType.removed) l) := by
  unfold restoreModified keepJoin
  rw [filter_lift (fun t => t != SegType.removed) l]
  rw [List.map_map]
  rw [show ((fun (g : DiffSegment) => g.text) ∘
      fun (g : CSeg) => (⟨g.type, String.mk g.text⟩ : DiffSegment)) =
      (String.mk ∘ CSeg.text) from rfl]
  rw [← List.map_map, foldr_append_mk]

/-- Round-trip of the diff, shared helper for the claims that need it. -/
theorem diff_restores (original modified : String) :
    restoreOriginal (computeWordDiff original modified) = original ∧
    restoreModified (computeWordDiff original modified) = modified := by
  constructor
  · show restoreOriginal ((wordDiffC original.data modified.data).map _) = _
    rw [restore_lift_orig]
    show String.mk (keepJoin _ (coalesce (backtrack _ _ _ _))) = _
    rw [coalesce_keepJoin (fun t => t != SegType.added)]
    rw [backtrack_keep_orig _ _ _ _ _ (le_refl _) (le_refl _) (le_refl _)]
    rw [List.take_length, splitTokens_join, mk_data]
  · show restoreModified ((wordDiffC original.data modified.data).map _) = _
    rw [restore_lift_mod]
    show String.mk (keepJoin _ (coalesce (backtrack _ _ _ _))) = _
    rw [coalesce_keepJoin (fun t => t != SegType.removed)]
    rw [backtrack_keep_mod _ _ _ _ _ (le_refl _) (le_refl _) (le_refl _)]
    rw [List.take_length, splitTokens_join, mk_data]

theorem backtrack_self (xs : List (List Char)) (k : Nat) (hk : k ≤ xs.length) :
    backtrack xs xs k k = (xs.take k).map (fun t => (⟨SegType.equal, t⟩ : CSeg)) := by
  induction k with
  | zero => simp [backtrack_zero_zero]
  | succ k ih =>
    rw [backtrack_succ_succ, if_pos rfl]
    rw [ih (Nat.le_of_succ_le hk), take_succ_getD xs k hk, List.map_append]
    simp

theorem coalesce_equal_run (rest : List (List Char)) :
    ∀ a, coalesceAux ⟨SegType.equal, a⟩
        (rest.map (fun t => (⟨SegType.equal, t⟩ : CSeg))) =
      [⟨SegType.equal, a ++ joinL rest⟩] := by
  induction rest with
  | nil =>
    intro a
    simp [coalesceAux, joinL]
  | cons b r2 ih =>
    intro a
    simp only [List.map_cons]
    rw [coalesceAux, if_pos rfl]
    have h2 := ih (a ++ b)
    rw [h2]
    simp [joinL, List.append_assoc]

/-- C1: for every pair of input strings, concatenating the text of all
segments of `computeWordDiff` whose type is equal or removed yields the
original string, and concatenating those whose type is equal or added
yields the modified string. -/
theorem c1_diff_round_trip (original modified : String) :
    restoreOriginal (computeWordDiff original modified) = original ∧
    restoreModified (computeWordDiff original modified) = modified :=
  diff_restores original modified

/-- C2: the segment list returned by `computeWordDiff` never contains two
consecutive segments of the same type, and on a DP-score tie the backtrack
emits an `added` operation (taking from the modified sequence). -/
theorem c2_diff_alternation_and_tie :
    (∀ original modified : String,
      List.Chain' (fun a b => a.type ≠ b.type) (computeWordDiff original modified)) ∧
    (∀ (xs ys : List (List Char)) (i j : Nat), xs.getD i [] ≠ ys.getD j [] →
      lcsDP xs ys i (j + 1) ≤ lcsDP xs ys (i + 1) j →
      backtrack xs ys (i + 1) (j + 1) =
        backtrack xs ys (i + 1) j ++ [⟨SegType.added, ys.getD j []⟩]) := by
  constructor
  · intro o m
    show List.Chain' _ ((wordDiffC o.data m.data).map _)
    rw [List.chain'_map]
    exact coalesce_alternates _
  · intro xs ys i j hne hle
    rw [backtrack_succ_succ, if_neg hne, if_pos hle]

theorem c2_diff_alternation_and_tie_witness :
    List.Chain' (fun (a b : DiffSegment) => a.type ≠ b.type)
      (computeWordDiff "a x" "b x") ∧
    backtrack [['a']] [['b']] 1 1 =
      backtrack [['a']] [['b']] 1 0 ++ [⟨SegType.added, ['b']⟩] :=
  ⟨c2_diff_alternation_and_tie.1 "a x" "b x",
   c2_diff_alternation_and_tie.2 [['a']] [['b']] 0 0 (by decide) (by decide)⟩

/-- C6, counterexample: with an empty original and modified `"abc"`, the
result is neither an empty list nor a single all-added segment — it starts
with a removed segment whose text is empty. -/
theorem c6_counterexample :
    ¬(computeWordDiff "" "abc" = [] ∨
      computeWordDiff "" "abc" = [⟨SegType.added, "abc"⟩]) := by decide

/-- C6, amended: `computeWordDiff` is total, and on empty inputs it still
reconstructs both inputs, but the result may contain empty-text segments
rather than being empty or a single segment. -/
theorem c6_amended_empty_inputs :
    computeWordDiff "" "" = [⟨SegType.equal, ""⟩] ∧
    computeWordDiff "" "abc" = [⟨SegType.removed, ""⟩, ⟨SegType.added, "abc"⟩] ∧
    computeWordDiff "abc" "" = [⟨SegType.removed, "abc"⟩, ⟨SegType.added, ""⟩] ∧
    (∀ s : String,
      restoreOriginal (computeWordDiff "" s) = "" ∧
      restoreModified (computeWordDiff "" s) = s ∧
      restoreOriginal (computeWordDiff s "") = s ∧
      restoreModified (computeWordDiff s "") = "") := by
  refine ⟨by decide, by decide, by decide, fun s => ?_⟩
  exact ⟨(diff_restores "" s).1, (diff_restores "" s).2,
    (diff_restores s "").1, (diff_restores s "").2⟩

/-- C7, counterexample: the diff of `"The quick fox"` and
`"The quick brown fox"` is not the claimed segment list — the whitespace
lands before the added word, not after it. -/
theorem c7_counterexample :
    computeWordDiff "The quick fox" "The quick brown fox" ≠
      [⟨SegType.equal, "The quick "⟩, ⟨SegType.added, "brown "⟩,
       ⟨SegType.equal, "fox"⟩] := by decide

/-- C7, amended: the diff of `"The quick fox"` and `"The quick brown fox"`
is equal-"The quick", added-" brown", equal-" fox": the tie-break attaches
the whitespace run in front of the added word. -/
theorem c7_amended :
    computeWordDiff "The quick fox" "The quick brown fox" =
      [⟨SegType.equal, "The quick"⟩, ⟨SegType.added, " brown"⟩,
       ⟨SegType.equal, " fox"⟩] := by decide

/-- C8: diffing any string against itself yields one single equal segment
spanning the whole string. -/
theorem c8_diff_idempotent (s : String) :
    computeWordDiff s s = [⟨SegType.equal, s⟩] := by
  show (wordDiffC s.data s.data).map _ = _
  show (coalesce (backtrack (splitTokens s.data) (splitTokens s.data)
    (splitTokens s.data).length (splitTokens s.data).length)).map _ = _
  rw [backtrack_self _ _ (le_refl _), List.take_length]
  obtain ⟨a, rest, h⟩ := List.exists_cons_of_ne_nil (splitTokens_ne_nil s.data)
  rw [h]
  show (coalesceAux _ _).map _ = _
  rw [coalesce_equal_run rest a]
  have hj : a ++ joinL rest = s.data := by
    have hs := splitTokens_join s.data
    rw [h] at hs
    simpa [joinL] using hs
  rw [hj]
  simp [mk_data]

/-- An opening brace character (the braces of the placeholder strings are
spelled via code points). -/
def lbrace : Char := Char.ofNat 123

/-- A closing brace character. -/
def rbrace : Char := Char.ofNat 125

/-- The placeholder the source substitutes for an abbreviation period. -/
def phABBR : List Char := [lbrace, lbrace, 'A', 'B', 'B', 'R', rbrace, rbrace]

/-- The placeholder the source substitutes for a decimal point. -/
def phDEC : List Char := [lbrace, lbrace, 'D', 'E', 'C', rbrace, rbrace]

/-- The placeholder the source substitutes for a domain dot. -/
def phDOM : List Char := [lbrace, lbrace, 'D', 'O', 'M', rbrace, rbrace]

/-- The sentence-boundary marker inserted before splitting. -/
def splitMark : List Char := "|SPLIT|".data

/-- The closing-quote class `['"\)\]]` of the sentence-split regex. -/
def quoteClass (c : Char) : Bool :=
  c = Char.ofNat 39 || c = Char.ofNat 34 || c = ')' || c = ']'

/-- Whether `pat` occurs literally at the head of the input. -/
def litHere : List Char → List Char → Bool
  | [], _ => true
  | _ :: _, [] => false
  | p :: ps, c :: cs => p = c && litHere ps cs

/-- Case-insensitive literal match at the head of the input; returns the
matched original-case text and the remainder. -/
def startsWithCI : List Char → List Char → Option (List Char × List Char)
  | [], cs => some ([], cs)
  | _ :: _, [] => none
  | p :: ps, c :: cs =>
    if lowerC c = lowerC p then
      match startsWithCI ps cs with
      | some (m, r) => some (c :: m, r)
      | none => none
    else none

/-- The scanning loop of a JavaScript global `String.replace`: at each
position the matcher `f` receives whether the previous character was a word
character (for `\b`) and the remaining input; on a match it returns the
replacement text and the count of extra characters consumed beyond the
first.  Matched spans are not rescanned; `skip` walks over them while
keeping the previous-character state current. -/
def goRepl (f : Bool → List Char → Option (List Char × Nat)) :
    Nat → Bool → List Char → List Char
  | _ + 1, _, [] => []
  | skip + 1, _, c :: cs => goRepl f skip (isWordChar c) cs
  | 0, _, [] => []
  | 0, prevW, c :: cs =>
    match f prevW (c :: cs) with
    | some (rep, k) => rep ++ goRepl f k (isWordChar c) cs
    | none => c :: goRepl f 0 (isWordChar c) cs

/-- Run a global replace from the start of the string. -/
def runRepl (f : Bool → List Char → Option (List Char × Nat))
    (cs : List Char) : List Char :=
  goRepl f 0 false cs

/-- The abbreviation list of `splitIntoSentences`, with the regex escapes of
the source resolved to the literal text each pattern matches. -/
def abbrList : List (List Char) :=
  (["e.g", "i.e", "et al", "etc", "vs", "cf", "viz", "ibid",
    "Dr", "Prof", "Mr", "Mrs", "Ms", "Jr", "Sr", "St",
    "Fig", "Figs", "Tab", "Eq", "Eqs", "Vol", "No", "pp", "ed", "eds",
    "Jan", "Feb", "Mar", "Apr", "Jun", "Jul", "Aug", "Sep", "Sept", "Oct",
    "Nov", "Dec",
    "Inc", "Corp", "Ltd", "Co", "Dept", "Univ", "Rev", "Int", "J",
    "approx", "ca", "c.f", "n.b", "N.B", "P.S"]).map String.data

/-- Matcher for one abbreviation regex `\b(abbr)\.(?=\s|$)` (flags `gi`):
word boundary, the literal abbreviation case-insensitively, a period, and a
lookahead requiring whitespace or end of input.  The replacement
`$1` + the ABBR placeholder keeps the matched text's case. -/
def abbrTry (pat : List Char) (prevW : Bool) (cs : List Char) :
    Option (List Char × Nat) :=
  if prevW then none
  else
    match startsWithCI pat cs with
    | some (m, rest) =>
      match rest with
      | '.' :: rest2 =>
        if rest2.isEmpty || jsWS (rest2.headD ' ') then some (m ++ phABBR, pat.length)
        else none
      | _ => none
    | none => none

/-- All abbreviation replacements, applied in source order. -/
def processAbbr (cs : List Char) : List Char :=
  abbrList.foldl (fun acc pat => runRepl (abbrTry pat) acc) cs

/-- Matcher for the decimal regex `(\d)\.(\d)` (flag `g`), replacement
`$1` + DEC placeholder + `$2`. -/
def decTry (_ : Bool) (cs : List Char) : Option (List Char × Nat) :=
  match cs with
  | d1 :: '.' :: d2 :: _ =>
    if isDigit d1 && isDigit d2 then some (d1 :: (phDEC ++ [d2]), 2) else none
  | _ => none

/-- The domain alternation `com|org|edu|gov|net|io` of the domain regex. -/
def domains : List (List Char) :=
  (["com", "org", "edu", "gov", "net", "io"]).map String.data

/-- Try the domain alternatives in order; each must be followed by a word
boundary, otherwise the next alternative is tried. -/
def domTryList : List (List Char) → List Char → Option (List Char × Nat)
  | [], _ => none
  | d :: ds, rest =>
    match startsWithCI d rest with
    | some (m, rest2) =>
      if rest2.isEmpty || !isWordChar (rest2.headD 'a') then some (m, d.length)
      else domTryList ds rest
    | none => domTryList ds rest

/-- Matcher for the domain regex `(\w)\.(com|org|edu|gov|net|io)\b`
(flags `gi`), replacement `$1` + DOM placeholder + `$2`. -/
def domTry (_ : Bool) (cs : List Char) : Option (List Char × Nat) :=
  match cs with
  | c :: '.' :: rest =>
    if isWordChar c then
      match domTryList domains rest with
      | some (m, len) => some (c :: (phDOM ++ m), len + 1)
      | none => none
    else none
  | _ => none

/-- Matcher for the sentence-split regex
`([.!?])(['"\)\]]*)\s+(?=[A-Z0-9]|$)` (flag `g`), replacement
`$1$2|SPLIT|`: terminal punctuation, a greedy run of closing quotes, a
nonempty whitespace run, and a lookahead for a capital letter, digit or end
of input. -/
def splitTry (_ : Bool) (cs : List Char) : Option (List Char × Nat) :=
  match cs with
  | [] => none
  | p :: rest =>
    if p = '.' || p = '!' || p = '?' then
      let qs := rest.takeWhile quoteClass
      let rest2 := rest.dropWhile quoteClass
      let ws := rest2.takeWhile jsWS
      let rest3 := rest2.dropWhile jsWS
      if ws.isEmpty then none
      else if rest3.isEmpty || isCapDigit (rest3.headD 'A') then
        some (p :: (qs ++ splitMark), qs.length + ws.length)
      else none
    else none

/-- `s.split('|SPLIT|')`: scanning loop, closing the current piece at each
leftmost occurrence of the marker. -/
def splitMarkAux : Nat → List Char → List Char → List (List Char)
  | _ + 1, acc, [] => [acc.reverse]
  | skip + 1, acc, _ :: cs => splitMarkAux skip acc cs
  | 0, acc, [] => [acc.reverse]
  | 0, acc, c :: cs =>
    if litHere splitMark (c :: cs) then
      acc.reverse :: splitMarkAux (splitMark.length - 1) [] cs
    else splitMarkAux 0 (c :: acc) cs

/-- Split the processed text on the literal `|SPLIT|` marker. -/
def splitOnMark (cs : List Char) : List (List Char) := splitMarkAux 0 [] cs

/-- Global literal (case-sensitive) replace, used to restore placeholders. -/
def replaceLitAux (pat rep : List Char) : Nat → List Char → List Char
  | _ + 1, [] => []
  | skip + 1, _ :: cs => replaceLitAux pat rep skip cs
  | 0, [] => []
  | 0, c :: cs =>
    if litHere pat (c :: cs) then rep ++ replaceLitAux pat rep (pat.length - 1) cs
    else c :: replaceLitAux pat rep 0 cs

/-- Global literal replace from the start of the string. -/
def replaceLit (pat rep cs : List Char) : List Char := replaceLitAux pat rep 0 cs

/-- `s.trim()` over the JavaScript whitespace class. -/
def jsTrim (cs : List Char) : List Char :=
  ((cs.dropWhile jsWS).reverse.dropWhile jsWS).reverse

/-- Restore the three placeholders to periods, in source order. -/
def restorePH (cs : List Char) : List Char :=
  replaceLit phDOM ['.'] (replaceLit phDEC ['.'] (replaceLit phABBR ['.'] cs))

/-- `splitIntoSentences` from `server/readability.ts`, over character
lists: protect abbreviations, decimals and domains, insert split markers,
split, trim, restore, and keep the nonempty pieces containing an ASCII
letter. -/
def sentencesC (cs : List Char) : List (List Char) :=
  let processed := runRepl splitTry (runRepl domTry (runRepl decTry (processAbbr cs)))
  ((splitOnMark processed).map (fun s => restorePH (jsTrim s))).filter
    (fun s => !s.isEmpty && s.any isAsciiLetter)

/-- `splitIntoSentences` from `server/readability.ts`. -/
def splitIntoSentences (text : String) : List String :=
  (sentencesC text.data).map String.mk

/-- The word list of `analyzeReadability`:
`text.split(/\s+/).filter(w => /[a-zA-Z]/.test(w))`. -/
def wordsOf (text : String) : List String :=
  ((splitOnWS text.data).filter (fun w => w.any isAsciiLetter)).map String.mk

/-- `countWords` from `server/readability.ts`:
`sentence.split(/\s+/).filter(w => w.length > 0).length`. -/
def countWords (s : String) : Nat :=
  ((splitOnWS s.data).filter (fun w => !w.isEmpty)).length

/-- The first group `am|is|are|was|were|be|been|being` of the first passive
pattern. -/
def beForms : List (List Char) :=
  (["am", "is", "are", "was", "were", "be", "been", "being"]).map String.data

/-- The literal participles of the first passive pattern's second group. -/
def participleWords : List (List Char) :=
  (["done", "made", "given", "taken", "seen", "known", "shown", "found",
    "used", "called"]).map String.data

/-- Whether the maximal word run at the head of the input matches
`\w+ed\b` case-insensitively: at least three word characters ending in
`ed`, followed by a non-word character or the end. -/
def edRunHere (cs : List Char) : Bool :=
  let run := cs.takeWhile isWordChar
  match run.reverse with
  | d :: e :: _ :: _ => lowerC d = 'd' && lowerC e = 'e'
  | _ => false

/-- Whether the word run at the head of the input is exactly the given
(lower-case) literal followed by a word boundary. -/
def litWordHere (w : List Char) (cs : List Char) : Bool :=
  (cs.takeWhile isWordChar).map lowerC = w

/-- The second group `(\w+ed|done|made|given|taken|seen|known|shown|found|used|called)\b`
of the first passive pattern, at the head of the input. -/
def participleHere (cs : List Char) : Bool :=
  edRunHere cs || participleWords.any (fun w => litWordHere w cs)

/-- Consume `\s+` at the head; `none` when no whitespace is present. -/
def wsPlus (cs : List Char) : Option (List Char) :=
  let ws := cs.takeWhile jsWS
  if ws.isEmpty then none else some (cs.dropWhile jsWS)

/-- Matcher at one position for the first passive pattern
`\b(am|is|are|...)\s+(\w+ed|done|...)\b` with flag `i`. -/
def passive1Here (prevW : Bool) (cs : List Char) : Bool :=
  !prevW &&
  beForms.any (fun aux =>
    match startsWithCI aux cs with
    | some (_, rest) =>
      match wsPlus rest with
      | some rest2 => participleHere rest2
      | none => false
    | none => false)

/-- Matcher at one position for `\b(has|have|had)\s+been\s+\w+ed\b`. -/
def passive2Here (prevW : Bool) (cs : List Char) : Bool :=
  !prevW &&
  ((["has", "have", "had"]).map String.data).any (fun aux =>
    match startsWithCI aux cs with
    | some (_, rest) =>
      match wsPlus rest with
      | some rest2 =>
        match startsWithCI "been".data rest2 with
        | some (_, rest3) =>
          match wsPlus rest3 with
          | some rest4 => edRunHere rest4
          | none => false
        | none => false
      | none => false
    | none => false)

/-- The modal auxiliaries of the remaining seven passive patterns. -/
def modalForms : List (List Char) :=
  (["will", "can", "may", "must", "should", "would", "could"]).map String.data

/-- Matcher at one position for `\b<modal>\s+be\s+\w+ed\b`. -/
def passiveModalHere (modal : List Char) (prevW : Bool) (cs : List Char) : Bool :=
  !prevW &&
  (match startsWithCI modal cs with
   | some (_, rest) =>
     match wsPlus rest with
     | some rest2 =>
       match startsWithCI "be".data rest2 with
       | some (_, rest3) =>
         match wsPlus rest3 with
         | some rest4 => edRunHere rest4
         | none => false
       | none => false
     | none => false
   | none => false)

/-- Whether any of the nine passive patterns matches at this position. -/
def passiveHere (prevW : Bool) (cs : List Char) : Bool :=
  passive1Here prevW cs || passive2Here prevW cs ||
  modalForms.any (fun m => passiveModalHere m prevW cs)

/-- Search all positions of the sentence for a passive pattern match. -/
def searchPassive : Bool → List Char → Bool
  | _, [] => false
  | prevW, c :: cs => passiveHere prevW (c :: cs) || searchPassive (isWordChar c) cs

/-- `isPassiveVoice` from `server/readability.ts`. -/
def isPassiveVoice (s : String) : Bool := searchPassive false s.data

/-- `word.toLowerCase().replace(/[^a-z]/g, '')` from `countSyllables`. -/
def cleanWord (w : List Char) : List Char :=
  (w.map lowerC).filter (fun c => 'a' ≤ c && c ≤ 'z')

/-- `countSyllables` from `server/readability.ts`; the external `syllable`
library is the parameter `syl`, applied to the cleaned word, with the floor
of one syllable per non-empty cleaned word. -/
def countSyllables (syl : List Char → Nat) (w : List Char) : Nat :=
  let cleaned := cleanWord w
  if cleaned.isEmpty then 0 else max 1 (syl cleaned)

/-- The vowel-group counting loop of the fallback branch of
`countSyllables` (y counted as a vowel, transitions into vowel groups). -/
def vowelGroupsAux : Bool → List Char → Nat
  | _, [] => 0
  | prevV, c :: cs =>
    let isV := c = 'a' || c = 'e' || c = 'i' || c = 'o' || c = 'u' || c = 'y'
    (if isV && !prevV then 1 else 0) + vowelGroupsAux isV cs

/-- The fallback syllable counter of the catch branch of `countSyllables`,
usable as a concrete instance of the `syl` parameter. -/
def countSyllablesFallback (cleaned : List Char) : Nat :=
  max 1 (vowelGroupsAux false cleaned)

/-- JavaScript `Math.round` on the rationals that occur here. -/
def jsRound (x : ℚ) : ℤ := ⌊x + 1 / 2⌋

/-- `Math.round(x * 10) / 10`. -/
def roundTo1 (x : ℚ) : ℚ := (jsRound (x * 10) : ℚ) / 10

/-- `Math.round(x * 100) / 100`. -/
def roundTo2 (x : ℚ) : ℚ := (jsRound (x * 100) : ℚ) / 100

/-- `getFleschGrade` from `server/readability.ts`. -/
def getFleschGrade (score : ℚ) : String :=
  if 90 ≤ score then "Very Easy (5th grade)"
  else if 80 ≤ score then "Easy (6th grade)"
  else if 70 ≤ score then "Fairly Easy (7th grade)"
  else if 60 ≤ score then "Standard (8th-9th grade)"
  else if 50 ≤ score then "Fairly Difficult (10th-12th grade)"
  else if 30 ≤ score then "Difficult (College)"
  else if 10 ≤ score then "Very Difficult (Graduate)"
  else "Extremely Difficult (Professional)"

/-- The `LongSentence` record of `shared/schema`. -/
structure LongSentence where
  text : String
  wordCount : Nat
  position : Nat
deriving DecidableEq, Repr

/-- The `ReadabilityMetrics` record of `shared/schema`. -/
structure ReadabilityMetrics where
  fleschScore : ℚ
  fleschGrade : String
  avgSentenceLength : ℚ
  avgWordLength : ℚ
  passiveVoicePercent : ℤ
  longSentences : List LongSentence
  totalSentences : Nat
  totalWords : Nat
deriving DecidableEq, Repr

/-- The zeroed report returned by both early-return branches of
`analyzeReadability`. -/
def emptyMetrics : ReadabilityMetrics :=
  ⟨0, "Unable to analyze", 0, 0, 0, [], 0, 0⟩

/-- The word-wise truncation loop of the long-sentence display text: add
whitespace-separated words while the next word still fits in 147
characters. -/
def truncWords : List (List Char) → List Char → List Char
  | [], acc => acc
  | w :: ws, acc =>
    if 147 < acc.length + w.length + 1 then acc
    else truncWords ws (acc ++ (if acc.isEmpty then [] else [' ']) ++ w)

/-- Truncate a sentence to at most 147 characters of whole words. -/
def truncTo147 (s : List Char) : List Char := truncWords (splitOnWS s) []

/-- The display text of a long sentence: truncated with a trailing ellipsis
when the raw sentence exceeds 150 characters. -/
def displayTextOf (s : String) : String :=
  if 150 < s.data.length then String.mk (truncTo147 s.data ++ ['.', '.', '.'])
  else s

/-- The long-sentence extraction loop of `analyzeReadability` (a forEach
with index `i`): every sentence of more than 25 words is recorded, in
order, with its display text, word count and 1-based position. -/
def longSentencesFrom (i : Nat) : List String → List LongSentence
  | [] => []
  | s :: rest =>
    (if 25 < countWords s then [⟨displayTextOf s, countWords s, i + 1⟩] else []) ++
      longSentencesFrom (i + 1) rest

/-- The long-sentence list of `analyzeReadability`, before `slice(0, 5)`. -/
def longSentencesOf (sentences : List String) : List LongSentence :=
  longSentencesFrom 0 sentences

/-- The total syllable count accumulated by `analyzeReadability` over its
word list (`words.reduce((sum, word) => sum + countSyllables(word), 0)`). -/
def totalSyllablesOf (syl : List Char → Nat) (text : String) : Nat :=
  (wordsOf text).foldl (fun sum w => sum + countSyllables syl w.data) 0

/-- `totalWords / totalSentences`. -/
def avgSentenceLengthOf (text : String) : Rat :=
  ((wordsOf text).length : Rat) / ((splitIntoSentences text).length : Rat)

/-- `totalSyllables / totalWords`. -/
def avgSyllablesPerWordOf (syl : List Char → Nat) (text : String) : Rat :=
  (totalSyllablesOf syl text : Rat) / ((wordsOf text).length : Rat)

/-- The raw Flesch reading-ease score
`206.835 - 1.015 * avgSentenceLength - 84.6 * avgSyllablesPerWord`. -/
def rawFleschOf (syl : List Char → Nat) (text : String) : Rat :=
  206.835 - 1.015 * avgSentenceLengthOf text - 84.6 * avgSyllablesPerWordOf syl text

/-- The raw score clamped to the range 0 to 100:
`Math.max(0, Math.min(100, rawFleschScore))`. -/
def clampedFleschOf (syl : List Char → Nat) (text : String) : Rat :=
  max 0 (min 100 (rawFleschOf syl text))

/-- `Math.round((passiveSentences / totalSentences) * 100)`. -/
def passivePercentOf (text : String) : Int :=
  jsRound ((((splitIntoSentences text).filter (fun s => isPassiveVoice s)).length : Rat) /
    ((splitIntoSentences text).length : Rat) * 100)

/-- `analyzeReadability` from `server/readability.ts`, parameterised by the
external `syllable` library `syl`. -/
def analyzeReadability (syl : List Char → Nat) (text : String) :
    ReadabilityMetrics :=
  if (splitIntoSentences text).length = 0 then emptyMetrics
  else if (wordsOf text).length = 0 then emptyMetrics
  else
    { fleschScore := roundTo1 (clampedFleschOf syl text)
      fleschGrade := getFleschGrade (clampedFleschOf syl text)
      avgSentenceLength := roundTo1 (avgSentenceLengthOf text)
      avgWordLength := roundTo2 (avgSyllablesPerWordOf syl text)
      passiveVoicePercent := passivePercentOf text
      longSentences := (longSentencesOf (splitIntoSentences text)).take 5
      totalSentences := (splitIntoSentences text).length
      totalWords := (wordsOf text).length }

theorem mem_joinL {c : Char} {t : List Char} {l : List (List Char)}
    (ht : t ∈ l) (hc : c ∈ t) : c ∈ joinL l := by
  induction l with
  | nil => simp at ht
  | cons a l ih =>
    rcases List.mem_cons.mp ht with h | h
    · subst h
      simp only [joinL, List.foldr_cons, List.mem_append]
      exact Or.inl hc
    · simp only [joinL, List.foldr_cons, List.mem_append]
      exact Or.inr (ih h)

theorem splitTokens_chars {c : Char} {t : List Char} {cs : List Char}
    (ht : t ∈ splitTokens cs) (hc : c ∈ t) : c ∈ cs := by
  have h := mem_joinL ht hc
  rwa [splitTokens_join] at h

theorem wordsOf_nil_of_no_letter {text : String}
    (h : ∀ c ∈ text.data, isAsciiLetter c = false) : wordsOf text = [] := by
  unfold wordsOf
  have hf : (splitOnWS text.data).filter (fun w => w.any isAsciiLetter) = [] := by
    rw [List.filter_eq_nil_iff]
    intro w hw hany
    rw [List.any_eq_true] at hany
    obtain ⟨c, hc, hlet⟩ := hany
    have hw2 : w ∈ splitTokens text.data := List.mem_of_mem_filter hw
    have hmem := splitTokens_chars hw2 hc
    rw [h c hmem] at hlet
    cases hlet
  rw [hf]
  rfl

/-- C3: whenever the sentence splitter finds no sentence or the word filter
finds no alphabetic word, `analyzeReadability` returns the zeroed report
with grade "Unable to analyze", and (being a total function) never throws. -/
theorem c3_zero_report (syl : List Char → Nat) (text : String)
    (h : splitIntoSentences text = [] ∨ wordsOf text = []) :
    analyzeReadability syl text = emptyMetrics := by
  unfold analyzeReadability
  rcases h with h | h
  · rw [if_pos (by rw [h]; rfl)]
  · by_cases h1 : (splitIntoSentences text).length = 0
    · rw [if_pos h1]
    · rw [if_neg h1, if_pos (by rw [h]; rfl)]

theorem c3_zero_report_witness :
    analyzeReadability countSyllablesFallback "" = emptyMetrics :=
  c3_zero_report countSyllablesFallback "" (Or.inl (by decide))

theorem roundTo1_clamp_bounds (x : Rat) :
    0 ≤ roundTo1 (max 0 (min 100 x)) ∧ roundTo1 (max 0 (min 100 x)) ≤ 100 := by
  have h0 : (0 : Rat) ≤ max 0 (min 100 x) := le_max_left 0 _
  have h100 : max 0 (min 100 x) ≤ 100 := by
    apply max_le _ (min_le_left _ _)
    norm_num
  unfold roundTo1 jsRound
  constructor
  · apply div_nonneg _ (by norm_num)
    have hz : (0 : Int) ≤ ⌊max 0 (min 100 x) * 10 + 1 / 2⌋ := by
      apply Int.le_floor.mpr
      push_cast
      nlinarith
    exact_mod_cast hz
  · rw [div_le_iff₀ (by norm_num : (0 : Rat) < 10)]
    have hf : ⌊max 0 (min 100 x) * 10 + 1 / 2⌋ ≤ 1000 := by
      have hb : max 0 (min 100 x) * 10 + 1 / 2 ≤ 2001 / 2 := by nlinarith
      calc ⌊max 0 (min 100 x) * 10 + 1 / 2⌋ ≤ ⌊(2001 : Rat) / 2⌋ :=
            Int.floor_mono hb
        _ = 1000 := by norm_num
    have hc : ((⌊max 0 (min 100 x) * 10 + 1 / 2⌋ : Int) : Rat) ≤ 1000 := by
      exact_mod_cast hf
    linarith

/-- C4: the reported fleschScore always lies in the range 0 to 100, and on
inputs with at least one sentence and one alphabetic word it equals the raw
formula score clamped to that range (then rounded to one decimal). -/
theorem c4_flesch_clamped (syl : List Char → Nat) (text : String) :
    (0 ≤ (analyzeReadability syl text).fleschScore ∧
      (analyzeReadability syl text).fleschScore ≤ 100) ∧
    (splitIntoSentences text ≠ [] → wordsOf text ≠ [] →
      (analyzeReadability syl text).fleschScore =
        roundTo1 (max 0 (min 100 (rawFleschOf syl text)))) := by
  constructor
  · by_cases h1 : (splitIntoSentences text).length = 0
    · unfold analyzeReadability
      rw [if_pos h1]
      constructor <;> norm_num [emptyMetrics]
    · by_cases h2 : (wordsOf text).length = 0
      · unfold analyzeReadability
        rw [if_neg h1, if_pos h2]
        constructor <;> norm_num [emptyMetrics]
      · unfold analyzeReadability
        rw [if_neg h1, if_neg h2]
        exact roundTo1_clamp_bounds (rawFleschOf syl text)
  · intro hs hw
    unfold analyzeReadability
    rw [if_neg (fun hh => hs (List.length_eq_zero.mp hh)),
      if_neg (fun hh => hw (List.length_eq_zero.mp hh))]
    rfl

theorem c4_flesch_clamped_witness :
    (analyzeReadability countSyllablesFallback "Hi.").fleschScore =
      roundTo1 (max 0 (min 100 (rawFleschOf countSyllablesFallback "Hi."))) :=
  (c4_flesch_clamped countSyllablesFallback "Hi.").2 (by decide) (by decide)

/-- C9: the analyzer protects the period of "Dr." and reports exactly two
sentences on the spec's example, for every syllable backend. -/
theorem c9_abbreviation_sentences (syl : List Char → Nat) :
    (analyzeReadability syl
      "Dr. Smith arrived. The results were significant.").totalSentences = 2 := by
  unfold analyzeReadability
  rw [if_neg (by decide), if_neg (by decide)]
  show (splitIntoSentences
    "Dr. Smith arrived. The results were significant.").length = 2
  decide

/-- C10, counterexample: the input consisting of the literal placeholder
text (braces, then ABBR, then braces) contains ASCII letters, yet the
analyzer returns the zeroed report: restoration rewrites the piece to "."
so no sentence survives, while the word filter still counts one word. -/
theorem c10_counterexample :
    (∃ c ∈ (String.mk phABBR).data, isAsciiLetter c = true) ∧
    analyzeReadability countSyllablesFallback (String.mk phABBR) = emptyMetrics ∧
    wordsOf (String.mk phABBR) ≠ [] :=
  ⟨by decide, by decide, by decide⟩


theorem char_le_iff_toNat (a b : Char) : a ≤ b ↔ a.toNat ≤ b.toNat := by
  rw [Char.le_def, UInt32.le_def, BitVec.le_def]
  exact Iff.rfl

theorem isAsciiLetter_iff (c : Char) :
    isAsciiLetter c = true ↔
      (97 ≤ c.toNat ∧ c.toNat ≤ 122) ∨ (65 ≤ c.toNat ∧ c.toNat ≤ 90) := by
  unfold isAsciiLetter
  rw [Bool.or_eq_true, Bool.and_eq_true, Bool.and_eq_true,
    decide_eq_true_iff, decide_eq_true_iff, decide_eq_true_iff, decide_eq_true_iff,
    char_le_iff_toNat, char_le_iff_toNat, char_le_iff_toNat, char_le_iff_toNat]
  exact Iff.rfl

theorem letter_of_lowerC_eq {c q : Char} (hq : isAsciiLetter q = true)
    (h : lowerC c = q) : isAsciiLetter c = true := by
  unfold lowerC at h
  by_cases hc : ('A' ≤ c && c ≤ 'Z') = true
  · rw [Bool.and_eq_true, decide_eq_true_iff, decide_eq_true_iff,
      char_le_iff_toNat, char_le_iff_toNat] at hc
    rw [isAsciiLetter_iff]
    right
    exact hc
  · rw [if_neg hc] at h
    subst h
    exact hq

theorem not_jsWS_of_letter {c : Char} (h : isAsciiLetter c = true) :
    jsWS c = false := by
  rw [isAsciiLetter_iff] at h
  have hc : 65 ≤ c.toNat ∧ c.toNat ≤ 122 := by omega
  unfold jsWS
  simp only [Bool.or_eq_false_iff]
  refine ⟨⟨⟨⟨⟨⟨⟨⟨⟨⟨⟨⟨⟨⟨?_, ?_⟩, ?_⟩, ?_⟩, ?_⟩, ?_⟩, ?_⟩, ?_⟩, ?_⟩, ?_⟩, ?_⟩, ?_⟩, ?_⟩, ?_⟩, ?_⟩
  all_goals first
    | (rw [decide_eq_false_iff_not]
       intro h2
       subst h2
       exact absurd hc (by decide))
    | (rw [Bool.and_eq_false_iff]
       left
       rw [decide_eq_false_iff_not]
       omega)


theorem goRepl_id_of_prop {f : Bool → List Char → Option (List Char × Nat)}
    {P : Char → Prop} (hf : ∀ b t, (∀ c ∈ t, P c) → f b t = none) :
    ∀ (s : List Char) (b : Bool), (∀ c ∈ s, P c) → goRepl f 0 b s = s := by
  intro s
  induction s with
  | nil => intro b h; rfl
  | cons c cs ih =>
    intro b h
    show (match f b (c :: cs) with
      | some (rep, k) => rep ++ goRepl f k (isWordChar c) cs
      | none => c :: goRepl f 0 (isWordChar c) cs) = c :: cs
    rw [hf b (c :: cs) h]
    rw [ih (isWordChar c) (fun x hx => h x (List.mem_cons_of_mem c hx))]

theorem startsWithCI_none {p : Char} {ps s : List Char}
    (hp : isAsciiLetter (lowerC p) = true)
    (hs : ∀ c ∈ s, isAsciiLetter c = false) :
    startsWithCI (p :: ps) s = none := by
  cases s with
  | nil => rfl
  | cons c cs =>
    show (if lowerC c = lowerC p then _ else none) = none
    rw [if_neg]
    intro h
    have := letter_of_lowerC_eq hp h
    rw [hs c (List.mem_cons_self c cs)] at this
    cases this

theorem abbrTry_none {pat : List Char} {b : Bool} {s : List Char}
    (hpat : pat ≠ [] ∧ isAsciiLetter (lowerC (pat.headD 'a')) = true)
    (hs : ∀ c ∈ s, isAsciiLetter c = false) : abbrTry pat b s = none := by
  match pat, hpat with
  | p :: ps, ⟨_, hp⟩ =>
    rw [List.headD_cons] at hp
    unfold abbrTry
    by_cases hb : b = true
    · rw [if_pos hb]
    · rw [if_neg hb, startsWithCI_none hp hs]

theorem processAbbr_id {s : List Char}
    (hs : ∀ c ∈ s, isAsciiLetter c = false) : processAbbr s = s := by
  unfold processAbbr
  have hall : ∀ pat ∈ abbrList,
      pat ≠ [] ∧ isAsciiLetter (lowerC (pat.headD 'a')) = true := by decide
  generalize abbrList = pats at hall ⊢
  induction pats with
  | nil => rfl
  | cons pat rest ih =>
    rw [List.foldl_cons]
    rw [show runRepl (abbrTry pat) s = s from
      goRepl_id_of_prop (fun b t ht => abbrTry_none (hall pat (by simp)) ht) s false hs]
    exact ih (fun q hq => hall q (List.mem_cons_of_mem pat hq))

theorem exists_mem_joinL {c : Char} {l : List (List Char)} (h : c ∈ joinL l) :
    ∃ t ∈ l, c ∈ t := by
  induction l with
  | nil => cases h
  | cons a l ih =>
    simp only [joinL, List.foldr_cons, List.mem_append] at h
    rcases h with h | h
    · exact ⟨a, List.mem_cons_self a l, h⟩
    · obtain ⟨t, ht, hc⟩ := ih h
      exact ⟨t, List.mem_cons_of_mem a ht, hc⟩

theorem splitTokens_fst_nonws :
    ∀ (cs : List Char) t1 rest, splitTokens cs = t1 :: rest →
      ∀ x ∈ t1, jsWS x = false := by
  intro cs
  induction cs with
  | nil =>
    intro t1 rest h x hx
    simp only [splitTokens, List.cons.injEq] at h
    rw [← h.1] at hx
    cases hx
  | cons c cs ih =>
    intro t1 rest h x hx
    rw [splitTokens] at h
    by_cases hc : jsWS c = true
    · rw [if_pos hc] at h
      match hr : splitTokens cs with
      | [] :: w :: r2 =>
        rw [hr] at h
        rw [← (List.cons.injEq .. |>.mp h).1] at hx
        cases hx
      | [] =>
        rw [hr] at h
        rw [← (List.cons.injEq .. |>.mp h).1] at hx
        cases hx
      | (c2 :: t2) :: r2 =>
        rw [hr] at h
        rw [← (List.cons.injEq .. |>.mp h).1] at hx
        cases hx
      | [[]] =>
        rw [hr] at h
        rw [← (List.cons.injEq .. |>.mp h).1] at hx
        cases hx
    · rw [if_neg hc] at h
      match hr : splitTokens cs with
      | t2 :: r2 =>
        rw [hr] at h
        obtain ⟨h1, h2⟩ := List.cons.injEq .. |>.mp h
        rw [← h1] at hx
        rcases List.mem_cons.mp hx with hx1 | hx2
        · subst hx1
          rw [Bool.eq_false_iff]
          exact hc
        · exact ih t2 r2 hr x hx2
      | [] =>
        rw [hr] at h
        obtain ⟨h1, h2⟩ := List.cons.injEq .. |>.mp h
        rw [← h1] at hx
        rcases List.mem_cons.mp hx with hx1 | hx2
        · subst hx1
          rw [Bool.eq_false_iff]
          exact hc
        · cases hx2

theorem splitTokens_snd_ws :
    ∀ (cs : List Char) w rest, splitTokens cs = [] :: w :: rest →
      ∀ x ∈ w, jsWS x = true := by
  intro cs
  induction cs with
  | nil =>
    intro w rest h
    simp [splitTokens] at h
  | cons c cs ih =>
    intro w rest h x hx
    rw [splitTokens] at h
    by_cases hc : jsWS c = true
    · rw [if_pos hc] at h
      match hr : splitTokens cs with
      | [] :: w2 :: r2 =>
        rw [hr] at h
        obtain ⟨h1, h23⟩ := List.cons.injEq .. |>.mp h
        obtain ⟨h2, h3⟩ := List.cons.injEq .. |>.mp h23
        rw [← h2] at hx
        rcases List.mem_cons.mp hx with hx1 | hx2
        · subst hx1; exact hc
        · exact ih w2 r2 hr x hx2
      | [] =>
        rw [hr] at h
        obtain ⟨h1, h23⟩ := List.cons.injEq .. |>.mp h
        obtain ⟨h2, h3⟩ := List.cons.injEq .. |>.mp h23
        rw [← h2] at hx
        rcases List.mem_cons.mp hx with hx1 | hx2
        · subst hx1; exact hc
        · cases hx2
      | (c2 :: t2) :: r2 =>
        rw [hr] at h
        obtain ⟨h1, h23⟩ := List.cons.injEq .. |>.mp h
        obtain ⟨h2, h3⟩ := List.cons.injEq .. |>.mp h23
        rw [← h2] at hx
        rcases List.mem_cons.mp hx with hx1 | hx2
        · subst hx1; exact hc
        · cases hx2
      | [[]] =>
        rw [hr] at h
        obtain ⟨h1, h23⟩ := List.cons.injEq .. |>.mp h
        obtain ⟨h2, h3⟩ := List.cons.injEq .. |>.mp h23
        rw [← h2] at hx
        rcases List.mem_cons.mp hx with hx1 | hx2
        · subst hx1; exact hc
        · cases hx2
    · rw [if_neg hc] at h
      match hr : splitTokens cs with
      | t2 :: r2 =>
        rw [hr] at h
        obtain ⟨h1, h2⟩ := List.cons.injEq .. |>.mp h
        -- first chunk c :: t2 = [] is impossible
        cases h1
      | [] =>
        rw [hr] at h
        obtain ⟨h1, h2⟩ := List.cons.injEq .. |>.mp h
        cases h1

theorem splitTokens_homog :
    ∀ (cs : List Char), ∀ t ∈ splitTokens cs,
      (∀ c ∈ t, jsWS c = true) ∨ (∀ c ∈ t, jsWS c = false) := by
  intro cs t ht
  induction cs generalizing t with
  | nil =>
    simp only [splitTokens, List.mem_singleton] at ht
    subst ht
    right
    intro c hc
    cases hc
  | cons c cs ih =>
    rw [splitTokens] at ht
    by_cases h : jsWS c = true
    · rw [if_pos h] at ht
      match hr : splitTokens cs with
      | [] :: w :: r2 =>
        rw [hr] at ht
        rcases List.mem_cons.mp ht with ht1 | ht2
        · subst ht1; right; intro x hx; cases hx
        · rcases List.mem_cons.mp ht2 with ht3 | ht4
          · subst ht3
            left
            intro x hx
            rcases List.mem_cons.mp hx with h1 | h2
            · subst h1; exact h
            · exact splitTokens_snd_ws cs w r2 hr x h2
          · exact ih _ (by rw [hr]; exact List.mem_cons_of_mem _ (List.mem_cons_of_mem _ ht4))
      | [] =>
        rw [hr] at ht
        rcases List.mem_cons.mp ht with ht1 | ht2
        · subst ht1; right; intro x hx; cases hx
        · rcases List.mem_cons.mp ht2 with ht3 | ht4
          · subst ht3
            left
            intro x hx
            rcases List.mem_cons.mp hx with h1 | h2
            · subst h1; exact h
            · cases h2
          · cases ht4
      | (c2 :: t2) :: r2 =>
        rw [hr] at ht
        rcases List.mem_cons.mp ht with ht1 | ht2
        · subst ht1; right; intro x hx; cases hx
        · rcases List.mem_cons.mp ht2 with ht3 | ht4
          · subst ht3
            left
            intro x hx
            rcases List.mem_cons.mp hx with h1 | h2
            · subst h1; exact h
            · cases h2
          · exact ih _ (by rw [hr]; exact ht4)
      | [[]] =>
        rw [hr] at ht
        rcases List.mem_cons.mp ht with ht1 | ht2
        · subst ht1; right; intro x hx; cases hx
        · rcases List.mem_cons.mp ht2 with ht3 | ht4
          · subst ht3
            left
            intro x hx
            rcases List.mem_cons.mp hx with h1 | h2
            · subst h1; exact h
            · cases h2
          · exact ih _ (by rw [hr]; exact ht4)
    · rw [if_neg h] at ht
      match hr : splitTokens cs with
      | t2 :: r2 =>
        rw [hr] at ht
        rcases List.mem_cons.mp ht with ht1 | ht2
        · subst ht1
          right
          intro x hx
          rcases List.mem_cons.mp hx with h1 | h2
          · subst h1
            rw [Bool.eq_false_iff]
            exact h
          · exact splitTokens_fst_nonws cs t2 r2 hr x h2
        · exact ih _ (by rw [hr]; exact List.mem_cons_of_mem _ ht2)
      | [] =>
        rw [hr] at ht
        rcases List.mem_cons.mp ht with ht1 | ht2
        · subst ht1
          right
          intro x hx
          rcases List.mem_cons.mp hx with h1 | h2
          · subst h1
            rw [Bool.eq_false_iff]
            exact h
          · cases h2
        · cases ht2


/-- Structure of the processed text of a letterless input: plain
non-letter characters, DEC placeholders, and split markers. -/
inductive Blk where
  | ch (c : Char)
  | dec
  | mark
deriving DecidableEq, Repr

/-- The character run denoted by a block list. -/
def renderB : List Blk → List Char
  | [] => []
  | Blk.ch c :: bs => c :: renderB bs
  | Blk.dec :: bs => phDEC ++ renderB bs
  | Blk.mark :: bs => splitMark ++ renderB bs

/-- Well-formedness of one block: plain characters are not ASCII letters,
and split markers are only allowed after the split-replacement stage. -/
def BlkOk (allowMark : Bool) : Blk → Prop
  | Blk.ch c => isAsciiLetter c = false
  | Blk.dec => True
  | Blk.mark => allowMark = true

theorem renderB_append (a b : List Blk) :
    renderB (a ++ b) = renderB a ++ renderB b := by
  induction a with
  | nil => rfl
  | cons x a ih => cases x <;> simp [renderB, ih]

theorem renderB_map_ch (l : List Char) : renderB (l.map Blk.ch) = l := by
  induction l with
  | nil => rfl
  | cons c l ih => simp [renderB, ih]

theorem renderB_letters {bs : List Blk} (h : ∀ x ∈ bs, BlkOk false x) :
    ∀ c ∈ renderB bs, isAsciiLetter c = true → c = 'D' ∨ c = 'E' ∨ c = 'C' := by
  induction bs with
  | nil => intro c hc; cases hc
  | cons x bs ih =>
    have hx := h x (List.mem_cons_self x bs)
    have hrest := fun y hy => h y (List.mem_cons_of_mem x hy)
    intro c hc hlet
    cases x with
    | ch c0 =>
      rcases List.mem_cons.mp hc with h1 | h2
      · subst h1
        rw [hx] at hlet
        cases hlet
      · exact ih hrest c h2 hlet
    | dec =>
      simp only [renderB] at hc
      rcases List.mem_append.mp hc with h1 | h2
      · have hcases : c = lbrace ∨ c = lbrace ∨ c = 'D' ∨ c = 'E' ∨ c = 'C' ∨
            c = rbrace ∨ c = rbrace := by simpa [phDEC] using h1
        rcases hcases with rfl | rfl | rfl | rfl | rfl | rfl | rfl
        · exact absurd hlet (by decide)
        · exact absurd hlet (by decide)
        · exact Or.inl rfl
        · exact Or.inr (Or.inl rfl)
        · exact Or.inr (Or.inr rfl)
        · exact absurd hlet (by decide)
        · exact absurd hlet (by decide)
      · exact ih hrest c h2 hlet
    | mark => cases hx

theorem decTry_some_inv {b : Bool} {s rep : List Char} {k : Nat}
    (h : decTry b s = some (rep, k)) :
    ∃ d1 d2 rest, s = d1 :: '.' :: d2 :: rest ∧ (isDigit d1 && isDigit d2) = true ∧
      rep = d1 :: (phDEC ++ [d2]) ∧ k = 2 := by
  unfold decTry at h
  split at h
  · split at h
    · obtain ⟨h1, h2⟩ := Prod.mk.injEq .. ▸ Option.some.injEq .. ▸ h
      exact ⟨_, _, _, rfl, by assumption, h1.symm, h2.symm⟩
    · cases h
  · cases h

theorem decRepl_blocks :
    ∀ (n : Nat) (s : List Char), s.length ≤ n →
      (∀ c ∈ s, isAsciiLetter c = false) → ∀ b,
      ∃ bs, (∀ x ∈ bs, BlkOk false x) ∧ goRepl decTry 0 b s = renderB bs := by
  intro n
  induction n with
  | zero =>
    intro s hl _ b
    match s, hl with
    | [], _ => exact ⟨[], by simp, rfl⟩
  | succ n ih =>
    intro s hl hnl b
    match s with
    | [] => exact ⟨[], by simp, rfl⟩
    | c :: cs =>
      cases hm : decTry b (c :: cs) with
      | none =>
        obtain ⟨bs, hok, heq⟩ := ih cs
          (by simp only [List.length_cons] at hl; omega)
          (fun x hx => hnl x (List.mem_cons_of_mem c hx)) (isWordChar c)
        refine ⟨Blk.ch c :: bs, ?_, ?_⟩
        · intro x hx
          rcases List.mem_cons.mp hx with h1 | h2
          · subst h1
            exact hnl c (List.mem_cons_self c cs)
          · exact hok x h2
        · simp only [goRepl]
          rw [hm, heq]
          rfl
      | some pk =>
        obtain ⟨rep, k⟩ := pk
        obtain ⟨d1, d2, rest, hs, hd, hrep, hk⟩ := decTry_some_inv hm
        obtain ⟨hc, hcs⟩ := List.cons.injEq .. |>.mp hs
        subst hc
        subst hcs
        subst hrep
        subst hk
        have hlen : rest.length ≤ n := by
          simp only [List.length_cons] at hl
          omega
        obtain ⟨bs, hok, heq⟩ := ih rest hlen
          (fun x hx => hnl x (by simp [hx])) (isWordChar d2)
        refine ⟨Blk.ch c :: Blk.dec :: Blk.ch d2 :: bs, ?_, ?_⟩
        · intro x hx
          rcases List.mem_cons.mp hx with h1 | hx2
          · subst h1
            exact hnl c (List.mem_cons_self _ _)
          · rcases List.mem_cons.mp hx2 with h2 | hx3
            · subst h2
              trivial
            · rcases List.mem_cons.mp hx3 with h3 | hx4
              · subst h3
                exact hnl d2 (by simp)
              · exact hok x hx4
        · simp only [goRepl]
          rw [hm]
          show (c :: (phDEC ++ [d2])) ++ goRepl decTry 0 (isWordChar d2) rest = _
          rw [heq]
          simp [renderB, List.append_assoc]


theorem startsWithCI_none_of_bad {pat s : List Char}
    (hbad : ∃ x ∈ pat, isAsciiLetter (lowerC x) = true ∧
      lowerC x ≠ 'd' ∧ lowerC x ≠ 'e' ∧ lowerC x ≠ 'c')
    (hs : ∀ c ∈ s, isAsciiLetter c = true → c = 'D' ∨ c = 'E' ∨ c = 'C') :
    startsWithCI pat s = none := by
  induction pat generalizing s with
  | nil =>
    obtain ⟨x, hx, _⟩ := hbad
    cases hx
  | cons p ps ih =>
    cases s with
    | nil => rfl
    | cons c cs =>
      show (if lowerC c = lowerC p then _ else none) = none
      obtain ⟨x, hx, hxl, hxd, hxe, hxc⟩ := hbad
      rcases List.mem_cons.mp hx with hxp | hxps
      · subst hxp
        rw [if_neg]
        intro hcp
        have hcl := letter_of_lowerC_eq hxl hcp
        rcases hs c (List.mem_cons_self c cs) hcl with rfl | rfl | rfl
        · exact hxd (by rw [← hcp]; decide)
        · exact hxe (by rw [← hcp]; decide)
        · exact hxc (by rw [← hcp]; decide)
      · by_cases hcp : lowerC c = lowerC p
        · rw [if_pos hcp,
            ih ⟨x, hxps, hxl, hxd, hxe, hxc⟩
              (fun y hy => hs y (List.mem_cons_of_mem c hy))]
        · rw [if_neg hcp]

theorem domTry_none {b : Bool} {s : List Char}
    (hs : ∀ c ∈ s, isAsciiLetter c = true → c = 'D' ∨ c = 'E' ∨ c = 'C') :
    domTry b s = none := by
  unfold domTry
  split
  · next c rest =>
    have hrest : ∀ y ∈ rest, isAsciiLetter y = true → y = 'D' ∨ y = 'E' ∨ y = 'C' :=
      fun y hy => hs y (List.mem_cons_of_mem c (List.mem_cons_of_mem '.' hy))
    by_cases hw : isWordChar c = true
    · rw [if_pos hw]
      have h1 : startsWithCI "com".data rest = none :=
        startsWithCI_none_of_bad ⟨'o', by decide, by decide⟩ hrest
      have h2 : startsWithCI "org".data rest = none :=
        startsWithCI_none_of_bad ⟨'o', by decide, by decide⟩ hrest
      have h3 : startsWithCI "edu".data rest = none :=
        startsWithCI_none_of_bad ⟨'u', by decide, by decide⟩ hrest
      have h4 : startsWithCI "gov".data rest = none :=
        startsWithCI_none_of_bad ⟨'g', by decide, by decide⟩ hrest
      have h5 : startsWithCI "net".data rest = none :=
        startsWithCI_none_of_bad ⟨'n', by decide, by decide⟩ hrest
      have h6 : startsWithCI "io".data rest = none :=
        startsWithCI_none_of_bad ⟨'i', by decide, by decide⟩ hrest
      simp only [domains, List.map, domTryList, h1, h2, h3, h4, h5, h6]
    · rw [if_neg hw]
  · rfl


/-- Take the longest prefix of plain-character blocks satisfying `P`. -/
def chSpan (P : Char → Bool) : List Blk → List Char × List Blk
  | [] => ([], [])
  | Blk.ch c :: bs =>
    if P c then
      let r := chSpan P bs
      (c :: r.1, r.2)
    else ([], Blk.ch c :: bs)
  | Blk.dec :: bs => ([], Blk.dec :: bs)
  | Blk.mark :: bs => ([], Blk.mark :: bs)

theorem chSpan_spec (P : Char → Bool) (hPl : P lbrace = false)
    (hPb : P '|' = false) :
    ∀ bs : List Blk, (renderB bs).takeWhile P = (chSpan P bs).1 ∧
      (renderB bs).dropWhile P = renderB (chSpan P bs).2 := by
  intro bs
  induction bs with
  | nil => exact ⟨rfl, rfl⟩
  | cons x bs ih =>
    cases x with
    | ch c =>
      by_cases hc : P c = true
      · simp only [renderB, chSpan, hc, if_true, List.takeWhile_cons, List.dropWhile_cons]
        exact ⟨by rw [ih.1], by rw [ih.2]⟩
      · simp only [renderB, chSpan, hc, if_false, List.takeWhile_cons, List.dropWhile_cons]
        exact ⟨by simp [hc], by simp [hc, renderB]⟩
    | dec =>
      constructor
      · show (phDEC ++ renderB bs).takeWhile P = []
        simp [phDEC, List.takeWhile_cons, hPl]
      · show (phDEC ++ renderB bs).dropWhile P = renderB (Blk.dec :: bs)
        simp [phDEC, List.dropWhile_cons, hPl, renderB]
    | mark =>
      constructor
      · show (splitMark ++ renderB bs).takeWhile P = []
        simp [splitMark, List.takeWhile_cons, hPb]
      · show (splitMark ++ renderB bs).dropWhile P = renderB (Blk.mark :: bs)
        simp [splitMark, List.dropWhile_cons, hPb, renderB]

theorem chSpan_len (P : Char → Bool) :
    ∀ bs : List Blk, (chSpan P bs).2.length ≤ bs.length := by
  intro bs
  induction bs with
  | nil => simp [chSpan]
  | cons x bs ih =>
    cases x with
    | ch c =>
      by_cases hc : P c = true
      · simp only [chSpan, hc, if_true]
        exact Nat.le_succ_of_le ih
      · simp [chSpan, hc]
    | dec => simp [chSpan]
    | mark => simp [chSpan]

theorem chSpan_sub (P : Char → Bool) :
    ∀ bs : List Blk, ∀ x ∈ (chSpan P bs).2, x ∈ bs := by
  intro bs
  induction bs with
  | nil => simp [chSpan]
  | cons y bs ih =>
    cases y with
    | ch c =>
      by_cases hc : P c = true
      · simp only [chSpan, hc, if_true]
        intro x hx
        exact List.mem_cons_of_mem _ (ih x hx)
      · simp [chSpan, hc]
    | dec => simp [chSpan]
    | mark => simp [chSpan]

theorem chSpan_chars (P : Char → Bool) :
    ∀ bs : List Blk, (∀ x ∈ bs, BlkOk false x) →
      ∀ c ∈ (chSpan P bs).1, isAsciiLetter c = false := by
  intro bs
  induction bs with
  | nil => simp [chSpan]
  | cons y bs ih =>
    intro hg
    cases y with
    | ch c0 =>
      by_cases hc : P c0 = true
      · simp only [chSpan, hc, if_true]
        intro c hcm
        rcases List.mem_cons.mp hcm with h1 | h2
        · subst h1
          exact hg (Blk.ch c) (List.mem_cons_self _ _)
        · exact ih (fun x hx => hg x (List.mem_cons_of_mem _ hx)) c h2
      · simp [chSpan, hc]
    | dec => simp [chSpan]
    | mark => simp [chSpan]

theorem goRepl_skip (f : Bool → List Char → Option (List Char × Nat)) :
    ∀ (t : List Char) (b : Bool) (u : List Char),
      goRepl f t.length b (t ++ u) =
        goRepl f 0 (t.foldl (fun _ c => isWordChar c) b) u := by
  intro t
  induction t with
  | nil => intro b u; rfl
  | cons c t ih =>
    intro b u
    show goRepl f (t.length + 1) b (c :: (t ++ u)) = _
    rw [show goRepl f (t.length + 1) b (c :: (t ++ u)) =
      goRepl f t.length (isWordChar c) (t ++ u) from rfl]
    rw [ih]
    rfl


theorem splitRepl_blocks :
    ∀ (n : Nat) (bs : List Blk), bs.length ≤ n → (∀ x ∈ bs, BlkOk false x) →
      ∀ b, ∃ bs2, (∀ x ∈ bs2, BlkOk true x) ∧
        goRepl splitTry 0 b (renderB bs) = renderB bs2 := by
  intro n
  induction n with
  | zero =>
    intro bs hl _ b
    match bs, hl with
    | [], _ => exact ⟨[], by simp, rfl⟩
  | succ n ih =>
    intro bs hl hg b
    match bs with
    | [] => exact ⟨[], by simp, rfl⟩
    | Blk.mark :: rest => exact absurd (hg Blk.mark (List.mem_cons_self _ _)) (by simp [BlkOk])
    | Blk.dec :: rest =>
      obtain ⟨bs2, h2, heq⟩ := ih rest
        (by simp only [List.length_cons] at hl; omega)
        (fun x hx => hg x (List.mem_cons_of_mem _ hx)) false
      refine ⟨Blk.dec :: bs2, ?_, ?_⟩
      · intro x hx
        rcases List.mem_cons.mp hx with h1 | hx2
        · subst h1; trivial
        · exact h2 x hx2
      · show goRepl splitTry 0 b (phDEC ++ renderB rest) = renderB (Blk.dec :: bs2)
        rw [show goRepl splitTry 0 b (phDEC ++ renderB rest) =
          phDEC ++ goRepl splitTry 0 false (renderB rest) from rfl]
        rw [heq]
        rfl
    | Blk.ch c :: rest =>
      have hgrest : ∀ x ∈ rest, BlkOk false x :=
        fun x hx => hg x (List.mem_cons_of_mem _ hx)
      have hlrest : rest.length ≤ n := by
        simp only [List.length_cons] at hl
        omega
      have hcnl : isAsciiLetter c = false := hg (Blk.ch c) (List.mem_cons_self _ _)
      have hrender : renderB (Blk.ch c :: rest) = c :: renderB rest := rfl
      by_cases hp : (c = '.' || c = '!' || c = '?') = true
      · -- possible sentence-split site
        obtain ⟨hqt, hqd⟩ := chSpan_spec quoteClass (by decide) (by decide) rest
        set bsq := (chSpan quoteClass rest).2 with hbsq
        set qs := (chSpan quoteClass rest).1 with hqs
        obtain ⟨hwt, hwd⟩ := chSpan_spec jsWS (by decide) (by decide) bsq
        set bsw := (chSpan jsWS bsq).2 with hbsw
        set ws := (chSpan jsWS bsq).1 with hws
        have hsplit : splitTry b (c :: renderB rest) =
            (if ws.isEmpty = true then none
             else if ((renderB bsw).isEmpty || isCapDigit ((renderB bsw).headD 'A')) = true then
               some (c :: (qs ++ splitMark), qs.length + ws.length)
             else none) := by
          show (if (c = '.' || c = '!' || c = '?') = true then _ else none) = _
          rw [if_pos hp]
          simp only [hqt, hqd, hwt, hwd]
        by_cases hwe : ws.isEmpty = true
        · -- no whitespace after the punctuation: no match here
          rw [if_pos hwe] at hsplit
          obtain ⟨bs2, h2, heq⟩ := ih rest hlrest hgrest (isWordChar c)
          refine ⟨Blk.ch c :: bs2, ?_, ?_⟩
          · intro x hx
            rcases List.mem_cons.mp hx with h1 | hx2
            · subst h1; exact hcnl
            · exact h2 x hx2
          · rw [hrender]
            simp only [goRepl]
            rw [hsplit, heq]
            rfl
        · rw [if_neg hwe] at hsplit
          by_cases hla : ((renderB bsw).isEmpty || isCapDigit ((renderB bsw).headD 'A')) = true
          · -- a match: emit the marker and skip the consumed quotes and whitespace
            rw [if_pos hla] at hsplit
            have hlw : bsw.length ≤ n :=
              le_trans (chSpan_len jsWS bsq) (le_trans (chSpan_len quoteClass rest) hlrest)
            have hgw : ∀ x ∈ bsw, BlkOk false x :=
              fun x hx => hgrest x (chSpan_sub quoteClass rest x (chSpan_sub jsWS bsq x hx))
            obtain ⟨bs2, h2, heq⟩ := ih bsw hlw hgw
              ((qs ++ ws).foldl (fun _ c => isWordChar c) (isWordChar c))
            refine ⟨Blk.ch c :: (qs.map Blk.ch ++ Blk.mark :: bs2), ?_, ?_⟩
            · intro x hx
              rcases List.mem_cons.mp hx with h1 | hx2
              · subst h1; exact hcnl
              · rcases List.mem_append.mp hx2 with hx3 | hx4
                · obtain ⟨c2, hc2, hx5⟩ := List.mem_map.mp hx3
                  rw [← hx5]
                  exact chSpan_chars quoteClass rest hgrest c2 hc2
                · rcases List.mem_cons.mp hx4 with h5 | hx6
                  · subst h5; rfl
                  · exact h2 x hx6
            · rw [hrender]
              simp only [goRepl]
              rw [hsplit]
              show (c :: (qs ++ splitMark)) ++
                goRepl splitTry (qs.length + ws.length) (isWordChar c) (renderB rest) = _
              have hrr : renderB rest = (qs ++ ws) ++ renderB bsw := by
                conv_lhs => rw [← List.takeWhile_append_dropWhile (p := quoteClass)
                  (l := renderB rest)]
                rw [hqt, hqd]
                conv_lhs => rw [← List.takeWhile_append_dropWhile (p := jsWS)
                  (l := renderB bsq)]
                rw [hwt, hwd, List.append_assoc]
              rw [hrr]
              rw [show qs.length + ws.length = (qs ++ ws).length from by
                simp [List.length_append]]
              rw [goRepl_skip splitTry (qs ++ ws) (isWordChar c) (renderB bsw), heq]
              simp [renderB, renderB_append, renderB_map_ch]
          · rw [if_neg hla] at hsplit
            obtain ⟨bs2, h2, heq⟩ := ih rest hlrest hgrest (isWordChar c)
            refine ⟨Blk.ch c :: bs2, ?_, ?_⟩
            · intro x hx
              rcases List.mem_cons.mp hx with h1 | hx2
              · subst h1; exact hcnl
              · exact h2 x hx2
            · rw [hrender]
              simp only [goRepl]
              rw [hsplit, heq]
              rfl
      · -- not a sentence-terminal character: no match here
        have hsplit : splitTry b (c :: renderB rest) = none := by
          show (if (c = '.' || c = '!' || c = '?') = true then _ else none) = none
          rw [if_neg hp]
        obtain ⟨bs2, h2, heq⟩ := ih rest hlrest hgrest (isWordChar c)
        refine ⟨Blk.ch c :: bs2, ?_, ?_⟩
        · intro x hx
          rcases List.mem_cons.mp hx with h1 | hx2
          · subst h1; exact hcnl
          · exact h2 x hx2
        · rw [hrender]
          simp only [goRepl]
          rw [hsplit, heq]
          rfl


theorem litHere_self : ∀ (pat s : List Char), litHere pat (pat ++ s) = true := by
  intro pat s
  induction pat with
  | nil => rfl
  | cons p ps ih => simp [litHere, ih]

theorem litHere_mem : ∀ (pat s : List Char), litHere pat s = true →
    ∀ p ∈ pat, p ∈ s := by
  intro pat
  induction pat with
  | nil => intro s _ p hp; cases hp
  | cons q ps ih =>
    intro s h p hp
    cases s with
    | nil => exact Bool.noConfusion h
    | cons c cs =>
      rw [show litHere (q :: ps) (c :: cs) = (decide (q = c) && litHere ps cs) from rfl,
        Bool.and_eq_true, decide_eq_true_eq] at h
      rcases List.mem_cons.mp hp with h1 | h2
      · subst h1
        rw [h.1]
        exact List.mem_cons_self c cs
      · exact List.mem_cons_of_mem c (ih cs h.2 p h2)

theorem replaceLitAux_step_match {pat rep : List Char} {a : Char} {s : List Char}
    (h : litHere pat (a :: s) = true) :
    replaceLitAux pat rep 0 (a :: s) =
      rep ++ replaceLitAux pat rep (pat.length - 1) s := by
  simp [replaceLitAux, h]

theorem replaceLitAux_step_no {pat rep : List Char} {a : Char} {s : List Char}
    (h : litHere pat (a :: s) = false) :
    replaceLitAux pat rep 0 (a :: s) = a :: replaceLitAux pat rep 0 s := by
  simp [replaceLitAux, h]

theorem replaceLitAux_skip (pat rep : List Char) :
    ∀ (t s : List Char), replaceLitAux pat rep t.length (t ++ s) =
      replaceLitAux pat rep 0 s := by
  intro t
  induction t with
  | nil => intro s; rfl
  | cons a t ih =>
    intro s
    show replaceLitAux pat rep (t.length + 1) (a :: (t ++ s)) = _
    rw [show replaceLitAux pat rep (t.length + 1) (a :: (t ++ s)) =
      replaceLitAux pat rep t.length (t ++ s) from rfl]
    exact ih s

theorem replaceLitAux_chars (pat rep : List Char) :
    ∀ (s : List Char) (skip : Nat), ∀ c ∈ replaceLitAux pat rep skip s,
      c ∈ s ∨ c ∈ rep := by
  intro s
  induction s with
  | nil =>
    intro skip c hc
    match skip, hc with
    | 0, hc => cases hc
    | _ + 1, hc => cases hc
  | cons a s ih =>
    intro skip c hc
    match skip with
    | k + 1 =>
      rcases ih k c hc with h | h
      · exact Or.inl (List.mem_cons_of_mem a h)
      · exact Or.inr h
    | 0 =>
      by_cases hl : litHere pat (a :: s) = true
      · rw [replaceLitAux_step_match hl] at hc
        rcases List.mem_append.mp hc with h | h
        · exact Or.inr h
        · rcases ih _ c h with h2 | h2
          · exact Or.inl (List.mem_cons_of_mem a h2)
          · exact Or.inr h2
      · rw [replaceLitAux_step_no (Bool.eq_false_iff.mpr hl)] at hc
        rcases List.mem_cons.mp hc with h | h
        · exact Or.inl (h ▸ List.mem_cons_self a s)
        · rcases ih 0 c h with h2 | h2
          · exact Or.inl (List.mem_cons_of_mem a h2)
          · exact Or.inr h2

theorem replaceLit_id_of_absent {pat rep : List Char} {p : Char} (hp : p ∈ pat) :
    ∀ (s : List Char), (∀ c ∈ s, c ≠ p) → replaceLit pat rep s = s := by
  intro s
  induction s with
  | nil => intro _; rfl
  | cons a s ih =>
    intro h
    have hl : litHere pat (a :: s) = false := by
      by_cases hl2 : litHere pat (a :: s) = true
      · exact absurd rfl (h p (litHere_mem pat (a :: s) hl2 p hp))
      · exact Bool.eq_false_iff.mpr hl2
    show replaceLitAux pat rep 0 (a :: s) = a :: s
    rw [replaceLitAux_step_no hl]
    exact congrArg (a :: ·) (ih fun c hc => h c (List.mem_cons_of_mem a hc))

theorem splitMarkAux_skip :
    ∀ (t acc s : List Char), splitMarkAux t.length acc (t ++ s) =
      splitMarkAux 0 acc s := by
  intro t
  induction t with
  | nil => intro acc s; rfl
  | cons a t ih =>
    intro acc s
    show splitMarkAux (t.length + 1) acc (a :: (t ++ s)) = _
    rw [show splitMarkAux (t.length + 1) acc (a :: (t ++ s)) =
      splitMarkAux t.length acc (t ++ s) from rfl]
    exact ih acc s

theorem splitMarkAux_step_match {a : Char} {s acc : List Char}
    (h : litHere splitMark (a :: s) = true) :
    splitMarkAux 0 acc (a :: s) =
      acc.reverse :: splitMarkAux (splitMark.length - 1) [] s := by
  simp [splitMarkAux, h]

theorem splitMarkAux_step_no {a : Char} {s acc : List Char}
    (h : litHere splitMark (a :: s) = false) :
    splitMarkAux 0 acc (a :: s) = splitMarkAux 0 (a :: acc) s := by
  simp [splitMarkAux, h]

theorem splitMarkAux_pass :
    ∀ (t : List Char), (∀ x ∈ t, x ≠ '|') →
      ∀ (acc s : List Char), splitMarkAux 0 acc (t ++ s) =
        splitMarkAux 0 (t.reverse ++ acc) s := by
  intro t
  induction t with
  | nil => intro _ acc s; rfl
  | cons a t ih =>
    intro h acc s
    have ha : a ≠ '|' := h a (List.mem_cons_self a t)
    have hl : litHere splitMark (a :: (t ++ s)) = false := by
      show (decide (('|' : Char) = a) && _) = false
      rw [decide_eq_false fun hh => ha hh.symm, Bool.false_and]
    rw [show a :: t ++ s = a :: (t ++ s) from rfl, splitMarkAux_step_no hl,
      ih (fun x hx => h x (List.mem_cons_of_mem a hx)) (a :: acc) s,
      List.reverse_cons, List.append_assoc]
    rfl


theorem litHere_DEC_tail_false :
    ∀ (bs : List Blk), (∀ x ∈ bs, BlkOk false x) →
      litHere ['D', 'E', 'C', rbrace, rbrace] (renderB bs) = false := by
  intro bs hg
  match bs with
  | [] => rfl
  | Blk.ch c :: rest =>
    show (decide (('D' : Char) = c) && _) = false
    have hc : isAsciiLetter c = false := hg (Blk.ch c) (List.mem_cons_self _ _)
    have hne : ¬ (('D' : Char) = c) := fun hh => by
      rw [← hh] at hc
      exact absurd hc (by decide)
    rw [decide_eq_false hne, Bool.false_and]
  | Blk.dec :: rest =>
    show (decide (('D' : Char) = lbrace) && _) = false
    rw [show decide (('D' : Char) = lbrace) = false from by decide, Bool.false_and]
  | Blk.mark :: rest =>
    exact absurd (hg Blk.mark (List.mem_cons_self _ _)) (by simp [BlkOk])

theorem litHere_phDEC_ch {c : Char} (hc : isAsciiLetter c = false) :
    ∀ (bs : List Blk), (∀ x ∈ bs, BlkOk false x) →
      litHere phDEC (c :: renderB bs) = false := by
  intro bs hg
  show (decide (lbrace = c) &&
    litHere [lbrace, 'D', 'E', 'C', rbrace, rbrace] (renderB bs)) = false
  by_cases hcl : lbrace = c
  · rw [decide_eq_true hcl, Bool.true_and]
    match bs with
    | [] => rfl
    | Blk.ch c2 :: rest =>
      show (decide (lbrace = c2) &&
        litHere ['D', 'E', 'C', rbrace, rbrace] (renderB rest)) = false
      rw [litHere_DEC_tail_false rest (fun x hx => hg x (List.mem_cons_of_mem _ hx)),
        Bool.and_false]
    | Blk.dec :: rest =>
      show (decide (lbrace = lbrace) && (decide (('D' : Char) = lbrace) && _)) = false
      rw [show decide (('D' : Char) = lbrace) = false from by decide, Bool.false_and,
        Bool.and_false]
    | Blk.mark :: rest =>
      exact absurd (hg Blk.mark (List.mem_cons_self _ _)) (by simp [BlkOk])
  · rw [decide_eq_false hcl, Bool.false_and]

theorem decRestore_no_letter :
    ∀ (n : Nat) (bs : List Blk), bs.length ≤ n → (∀ x ∈ bs, BlkOk false x) →
      ∀ c ∈ replaceLitAux phDEC ['.'] 0 (renderB bs), isAsciiLetter c = false := by
  intro n
  induction n with
  | zero =>
    intro bs hl _
    match bs, hl with
    | [], _ => intro c hc; cases hc
  | succ n ih =>
    intro bs hl hg
    match bs with
    | [] => intro c hc; cases hc
    | Blk.mark :: rest =>
      exact absurd (hg Blk.mark (List.mem_cons_self _ _)) (by simp [BlkOk])
    | Blk.dec :: rest =>
      intro c hc
      have hred : replaceLitAux phDEC ['.'] 0 (renderB (Blk.dec :: rest)) =
          '.' :: replaceLitAux phDEC ['.'] 0 (renderB rest) := by
        show replaceLitAux phDEC ['.'] 0 (phDEC ++ renderB rest) = _
        rw [show phDEC ++ renderB rest =
          lbrace :: ([lbrace, 'D', 'E', 'C', rbrace, rbrace] ++ renderB rest) from rfl]
        rw [replaceLitAux_step_match (show litHere phDEC
          (lbrace :: ([lbrace, 'D', 'E', 'C', rbrace, rbrace] ++ renderB rest)) = true
          from litHere_self phDEC (renderB rest))]
        rw [show phDEC.length - 1 =
          ([lbrace, 'D', 'E', 'C', rbrace, rbrace] : List Char).length from rfl]
        rw [replaceLitAux_skip]
        rfl
      rw [hred] at hc
      rcases List.mem_cons.mp hc with h1 | h2
      · subst h1; decide
      · exact ih rest (by simp only [List.length_cons] at hl; omega)
          (fun x hx => hg x (List.mem_cons_of_mem _ hx)) c h2
    | Blk.ch c0 :: rest =>
      intro c hc
      have hc0 : isAsciiLetter c0 = false := hg (Blk.ch c0) (List.mem_cons_self _ _)
      have hgr : ∀ x ∈ rest, BlkOk false x :=
        fun x hx => hg x (List.mem_cons_of_mem _ hx)
      have hred : replaceLitAux phDEC ['.'] 0 (renderB (Blk.ch c0 :: rest)) =
          c0 :: replaceLitAux phDEC ['.'] 0 (renderB rest) := by
        show replaceLitAux phDEC ['.'] 0 (c0 :: renderB rest) = _
        rw [replaceLitAux_step_no (litHere_phDEC_ch hc0 rest hgr)]
      rw [hred] at hc
      rcases List.mem_cons.mp hc with h1 | h2
      · subst h1; exact hc0
      · exact ih rest (by simp only [List.length_cons] at hl; omega) hgr c h2

theorem litHere_SPLIT_tail_false :
    ∀ (bs : List Blk), (∀ x ∈ bs, BlkOk true x) →
      litHere ['S', 'P', 'L', 'I', 'T', '|'] (renderB bs) = false := by
  intro bs hg
  match bs with
  | [] => rfl
  | Blk.ch c :: rest =>
    show (decide (('S' : Char) = c) && _) = false
    have hc : isAsciiLetter c = false := hg (Blk.ch c) (List.mem_cons_self _ _)
    have hne : ¬ (('S' : Char) = c) := fun hh => by
      rw [← hh] at hc
      exact absurd hc (by decide)
    rw [decide_eq_false hne, Bool.false_and]
  | Blk.dec :: rest =>
    show (decide (('S' : Char) = lbrace) && _) = false
    rw [show decide (('S' : Char) = lbrace) = false from by decide, Bool.false_and]
  | Blk.mark :: rest =>
    show (decide (('S' : Char) = '|') && _) = false
    rw [show decide (('S' : Char) = '|') = false from by decide, Bool.false_and]


theorem splitMark_blocks :
    ∀ (n : Nat) (bs : List Blk), bs.length ≤ n → (∀ x ∈ bs, BlkOk true x) →
      ∀ (a : List Blk), (∀ x ∈ a, BlkOk false x) →
      ∃ press : List (List Blk), (∀ p ∈ press, ∀ x ∈ p, BlkOk false x) ∧
        splitMarkAux 0 (renderB a).reverse (renderB bs) = press.map renderB := by
  intro n
  induction n with
  | zero =>
    intro bs hl _ a ha
    match bs, hl with
    | [], _ =>
      refine ⟨[a], ?_, ?_⟩
      · intro p hp
        rw [List.mem_singleton.mp hp]
        exact ha
      · show [(renderB a).reverse.reverse] = [renderB a]
        rw [List.reverse_reverse]
  | succ n ih =>
    intro bs hl hg a ha
    match bs with
    | [] =>
      refine ⟨[a], ?_, ?_⟩
      · intro p hp
        rw [List.mem_singleton.mp hp]
        exact ha
      · show [(renderB a).reverse.reverse] = [renderB a]
        rw [List.reverse_reverse]
    | Blk.ch c :: rest =>
      have hc : isAsciiLetter c = false := hg (Blk.ch c) (List.mem_cons_self _ _)
      have hgr : ∀ x ∈ rest, BlkOk true x :=
        fun x hx => hg x (List.mem_cons_of_mem _ hx)
      have hlr : rest.length ≤ n := by simp only [List.length_cons] at hl; omega
      have ha2 : ∀ x ∈ a ++ [Blk.ch c], BlkOk false x := by
        intro x hx
        rcases List.mem_append.mp hx with h1 | h2
        · exact ha x h1
        · rw [List.mem_singleton.mp h2]
          exact hc
      have hacc : c :: (renderB a).reverse = (renderB (a ++ [Blk.ch c])).reverse := by
        rw [renderB_append, List.reverse_append]
        rfl
      have hlit : litHere splitMark (c :: renderB rest) = false := by
        by_cases hcb : c = '|'
        · subst hcb
          show (decide (('|' : Char) = '|') &&
            litHere ['S', 'P', 'L', 'I', 'T', '|'] (renderB rest)) = false
          rw [litHere_SPLIT_tail_false rest hgr, Bool.and_false]
        · show (decide (('|' : Char) = c) && _) = false
          rw [decide_eq_false fun hh => hcb hh.symm, Bool.false_and]
      obtain ⟨press, hp, he⟩ := ih rest hlr hgr (a ++ [Blk.ch c]) ha2
      refine ⟨press, hp, ?_⟩
      show splitMarkAux 0 (renderB a).reverse (c :: renderB rest) = _
      rw [splitMarkAux_step_no hlit, hacc]
      exact he
    | Blk.dec :: rest =>
      have hgr : ∀ x ∈ rest, BlkOk true x :=
        fun x hx => hg x (List.mem_cons_of_mem _ hx)
      have hlr : rest.length ≤ n := by simp only [List.length_cons] at hl; omega
      have ha2 : ∀ x ∈ a ++ [Blk.dec], BlkOk false x := by
        intro x hx
        rcases List.mem_append.mp hx with h1 | h2
        · exact ha x h1
        · rw [List.mem_singleton.mp h2]
          trivial
      obtain ⟨press, hp, he⟩ := ih rest hlr hgr (a ++ [Blk.dec]) ha2
      refine ⟨press, hp, ?_⟩
      show splitMarkAux 0 (renderB a).reverse (phDEC ++ renderB rest) = _
      rw [splitMarkAux_pass phDEC (by decide) (renderB a).reverse (renderB rest)]
      rw [show phDEC.reverse ++ (renderB a).reverse =
        (renderB (a ++ [Blk.dec])).reverse from by
          rw [renderB_append, List.reverse_append]
          rfl]
      exact he
    | Blk.mark :: rest =>
      have hgr : ∀ x ∈ rest, BlkOk true x :=
        fun x hx => hg x (List.mem_cons_of_mem _ hx)
      have hlr : rest.length ≤ n := by simp only [List.length_cons] at hl; omega
      obtain ⟨press, hp, he⟩ :=
        ih rest hlr hgr [] (fun x hx => absurd hx (List.not_mem_nil x))
      refine ⟨a :: press, ?_, ?_⟩
      · intro p hpp
        rcases List.mem_cons.mp hpp with h1 | h2
        · rw [h1]
          exact ha
        · exact hp p h2
      · show splitMarkAux 0 (renderB a).reverse
          ('|' :: (['S', 'P', 'L', 'I', 'T', '|'] ++ renderB rest)) = _
        rw [splitMarkAux_step_match (show litHere splitMark
          ('|' :: (['S', 'P', 'L', 'I', 'T', '|'] ++ renderB rest)) = true
          from litHere_self splitMark (renderB rest))]
        rw [show splitMark.length - 1 =
          (['S', 'P', 'L', 'I', 'T', '|'] : List Char).length from rfl]
        rw [splitMarkAux_skip, List.reverse_reverse]
        show renderB a ::
          splitMarkAux 0 (renderB ([] : List Blk)).reverse (renderB rest) =
          (a :: press).map renderB
        rw [he]
        rfl

theorem trimTail_blocks :
    ∀ (bs : List Blk), (∀ x ∈ bs, BlkOk false x) →
      ∃ bs2, (∀ x ∈ bs2, BlkOk false x) ∧
        ((renderB bs).reverse.dropWhile jsWS).reverse = renderB bs2 := by
  intro bs
  induction bs using List.reverseRecOn with
  | nil => exact fun _ => ⟨[], fun x hx => absurd hx (List.not_mem_nil x), rfl⟩
  | append_singleton bs b ih =>
    intro hg
    have hgb : ∀ x ∈ bs, BlkOk false x := fun x hx => hg x (List.mem_append_left _ hx)
    match b with
    | Blk.mark =>
      exact absurd (hg Blk.mark (List.mem_append_right _ (List.mem_singleton.mpr rfl)))
        (by simp [BlkOk])
    | Blk.dec =>
      refine ⟨bs ++ [Blk.dec], hg, ?_⟩
      have h1 : (renderB (bs ++ [Blk.dec])).reverse =
          rbrace :: ([rbrace, 'C', 'E', 'D', lbrace, lbrace] ++
            (renderB bs).reverse) := by
        rw [renderB_append, List.reverse_append]
        rfl
      rw [h1, List.dropWhile_cons_of_neg (by decide), ← h1, List.reverse_reverse]
    | Blk.ch c =>
      have h1 : (renderB (bs ++ [Blk.ch c])).reverse = c :: (renderB bs).reverse := by
        rw [renderB_append, List.reverse_append]
        rfl
      by_cases hwc : jsWS c = true
      · obtain ⟨bs2, hok, heq⟩ := ih hgb
        refine ⟨bs2, hok, ?_⟩
        rw [h1, List.dropWhile_cons_of_pos hwc]
        exact heq
      · refine ⟨bs ++ [Blk.ch c], hg, ?_⟩
        rw [h1, List.dropWhile_cons_of_neg hwc, ← h1, List.reverse_reverse]

theorem jsTrim_blocks :
    ∀ (bs : List Blk), (∀ x ∈ bs, BlkOk false x) →
      ∃ bs2, (∀ x ∈ bs2, BlkOk false x) ∧ jsTrim (renderB bs) = renderB bs2 := by
  intro bs hg
  have hfront : (renderB bs).dropWhile jsWS = renderB (chSpan jsWS bs).2 :=
    (chSpan_spec jsWS (by decide) (by decide) bs).2
  obtain ⟨bs2, hok, heq⟩ := trimTail_blocks (chSpan jsWS bs).2
    (fun x hx => hg x (chSpan_sub jsWS bs x hx))
  refine ⟨bs2, hok, ?_⟩
  show (((renderB bs).dropWhile jsWS).reverse.dropWhile jsWS).reverse = renderB bs2
  rw [hfront]
  exact heq

theorem domRepl_id_blocks {s : List Char}
    (hs : ∀ c ∈ s, isAsciiLetter c = true → c = 'D' ∨ c = 'E' ∨ c = 'C') :
    runRepl domTry s = s :=
  goRepl_id_of_prop (fun b t ht => domTry_none ht) s false hs

theorem restorePH_no_letter :
    ∀ (bs : List Blk), (∀ x ∈ bs, BlkOk false x) →
      ∀ c ∈ restorePH (renderB bs), isAsciiLetter c = false := by
  intro bs hg c hc
  have habbr : replaceLit phABBR ['.'] (renderB bs) = renderB bs := by
    apply replaceLit_id_of_absent (p := 'A') (by decide)
    intro x hx hxa
    have hmem := renderB_letters hg x hx (by rw [hxa]; decide)
    rw [hxa] at hmem
    rcases hmem with h | h | h <;> exact absurd h (by decide)
  have hdec : ∀ y ∈ replaceLitAux phDEC ['.'] 0 (renderB bs),
      isAsciiLetter y = false :=
    decRestore_no_letter bs.length bs (le_refl _) hg
  unfold restorePH at hc
  rw [habbr] at hc
  rcases replaceLitAux_chars phDOM ['.']
    (replaceLit phDEC ['.'] (renderB bs)) 0 c hc with h | h
  · exact hdec c h
  · rw [List.mem_singleton.mp h]
    decide


theorem sentencesC_nil_of_no_letter {cs : List Char}
    (h : ∀ c ∈ cs, isAsciiLetter c = false) : sentencesC cs = [] := by
  obtain ⟨bs1, hok1, heq1⟩ := decRepl_blocks cs.length cs (le_refl _) h false
  have habbr : processAbbr cs = cs := processAbbr_id h
  have hdom : runRepl domTry (renderB bs1) = renderB bs1 :=
    domRepl_id_blocks (renderB_letters hok1)
  obtain ⟨bs2, hok2, heq2⟩ := splitRepl_blocks bs1.length bs1 (le_refl _) hok1 false
  obtain ⟨press, hpok, heq3⟩ := splitMark_blocks bs2.length bs2 (le_refl _) hok2 []
    (fun x hx => absurd hx (List.not_mem_nil x))
  show ((splitOnMark (runRepl splitTry (runRepl domTry (runRepl decTry
    (processAbbr cs))))).map (fun s => restorePH (jsTrim s))).filter
    (fun s => !s.isEmpty && s.any isAsciiLetter) = []
  rw [habbr]
  rw [show runRepl decTry cs = renderB bs1 from heq1]
  rw [hdom]
  rw [show runRepl splitTry (renderB bs1) = renderB bs2 from heq2]
  rw [show splitOnMark (renderB bs2) = press.map renderB from heq3]
  rw [List.filter_eq_nil_iff]
  intro s hs
  rw [List.mem_map] at hs
  obtain ⟨t, ht, hts⟩ := hs
  rw [List.mem_map] at ht
  obtain ⟨p, hp, hpt⟩ := ht
  obtain ⟨p2, hokp2, heqt⟩ := jsTrim_blocks p (hpok p hp)
  intro hcontra
  rw [← hpt] at hts
  rw [← hts] at hcontra
  have hb : ((!(restorePH (jsTrim (renderB p))).isEmpty) &&
      (restorePH (jsTrim (renderB p))).any isAsciiLetter) = true := hcontra
  rw [Bool.and_eq_true] at hb
  obtain ⟨c, hcmem, hclet⟩ := List.any_eq_true.mp hb.2
  rw [heqt] at hcmem
  rw [restorePH_no_letter p2 hokp2 c hcmem] at hclet
  cases hclet

theorem splitIntoSentences_nil_of_no_letter {text : String}
    (h : ∀ c ∈ text.data, isAsciiLetter c = false) :
    splitIntoSentences text = [] := by
  unfold splitIntoSentences
  rw [sentencesC_nil_of_no_letter h]
  rfl

theorem exists_word_of_letter {text : String} {c : Char} (hc : c ∈ text.data)
    (hl : isAsciiLetter c = true) : wordsOf text ≠ [] := by
  have hjoin : c ∈ joinL (splitTokens text.data) := by
    rw [splitTokens_join]
    exact hc
  obtain ⟨t, ht, hct⟩ := exists_mem_joinL hjoin
  have hnw : ∀ x ∈ t, jsWS x = false := by
    rcases splitTokens_homog text.data t ht with hws | hnws
    · exact absurd (hws c hct) (by rw [not_jsWS_of_letter hl]; decide)
    · exact hnws
  have htf : t ∈ splitOnWS text.data := by
    unfold splitOnWS
    rw [List.mem_filter]
    refine ⟨ht, ?_⟩
    rw [Bool.not_eq_true', List.any_eq_false]
    intro x hx
    rw [hnw x hx]
    exact Bool.false_ne_true
  have hmem : t ∈ (splitOnWS text.data).filter (fun w => w.any isAsciiLetter) := by
    rw [List.mem_filter]
    exact ⟨htf, List.any_eq_true.mpr ⟨c, hct, hl⟩⟩
  intro hnil
  unfold wordsOf at hnil
  rw [List.map_eq_nil] at hnil
  rw [hnil] at hmem
  cases hmem

theorem sentences_imp_words {text : String}
    (h : splitIntoSentences text ≠ []) : wordsOf text ≠ [] := by
  by_cases hl : ∃ c ∈ text.data, isAsciiLetter c = true
  · obtain ⟨c, hc, hcl⟩ := hl
    exact exists_word_of_letter hc hcl
  · push_neg at hl
    exact absurd (splitIntoSentences_nil_of_no_letter
      (fun c hc => Bool.eq_false_iff.mpr (hl c hc))) h



/-- C10, amended: the analyzer returns the zeroed "Unable to analyze" report
whenever the input contains no ASCII letter, and the second early return
(sentences detected but no alphabetic word) is unreachable: whenever the
sentence splitter returns a nonempty list, the word filter is nonempty too.
The converse of the zeroing direction fails: an input made only of the
literal placeholder text contains ASCII letters yet is zeroed (see the
counterexample). -/
theorem c10_amended_no_letter_zeroed (syl : List Char → Nat) (text : String) :
    ((∀ c ∈ text.data, isAsciiLetter c = false) →
      analyzeReadability syl text = emptyMetrics) ∧
    (splitIntoSentences text ≠ [] → wordsOf text ≠ []) := by
  constructor
  · intro h
    have hw := wordsOf_nil_of_no_letter h
    unfold analyzeReadability
    by_cases h1 : (splitIntoSentences text).length = 0
    · rw [if_pos h1]
    · rw [if_neg h1, if_pos (by rw [hw]; rfl)]
  · exact sentences_imp_words

theorem c10_amended_no_letter_zeroed_witness :
    (analyzeReadability countSyllablesFallback "123 !?" = emptyMetrics) ∧
    wordsOf "Hi." ≠ [] :=
  ⟨(c10_amended_no_letter_zeroed countSyllablesFallback "123 !?").1 (by decide),
   (c10_amended_no_letter_zeroed countSyllablesFallback "Hi.").2 (by decide)⟩


set_option maxHeartbeats 1600000 in
theorem longSentences_witness_eval :
    (analyzeReadability countSyllablesFallback
      "b b b b b b b b b b b b b b b b b b b b b b b b b b.").longSentences =
      [⟨"b b b b b b b b b b b b b b b b b b b b b b b b b b.", 26, 1⟩] := by decide

attribute [irreducible] sentencesC splitOnWS

theorem mem_longSentencesFrom :
    ∀ (l : List String) (i : Nat) (e : LongSentence),
      e ∈ longSentencesFrom i l →
      25 < e.wordCount ∧ i + 1 ≤ e.position ∧
      ∃ s, l.get? (e.position - 1 - i) = some s ∧
        e.text = displayTextOf s ∧ e.wordCount = countWords s := by
  intro l
  induction l with
  | nil => intro i e he; simp [longSentencesFrom] at he
  | cons s rest ih =>
    intro i e he
    rw [longSentencesFrom, List.mem_append] at he
    rcases he with he | he
    · by_cases hc : 25 < countWords s
      · rw [if_pos hc] at he
        simp only [List.mem_singleton] at he
        subst he
        refine ⟨hc, le_refl _, s, ?_, rfl, rfl⟩
        simp
      · rw [if_neg hc] at he
        simp at he
    · obtain ⟨hwc, hpos, s2, hget, htext, hcount⟩ := ih (i + 1) e he
      refine ⟨hwc, by omega, s2, ?_, htext, hcount⟩
      have harith : e.position - 1 - i = (e.position - 1 - (i + 1)) + 1 := by omega
      rw [harith, List.get?_cons_succ]
      exact hget

theorem pairwise_longSentencesFrom :
    ∀ (l : List String) (i : Nat),
      List.Pairwise (fun a b => a.position < b.position) (longSentencesFrom i l) := by
  intro l
  induction l with
  | nil => intro i; simp [longSentencesFrom]
  | cons s rest ih =>
    intro i
    rw [longSentencesFrom]
    by_cases hc : 25 < countWords s
    · rw [if_pos hc]
      simp only [List.singleton_append, List.pairwise_cons]
      refine ⟨?_, ih (i + 1)⟩
      intro e he
      have := (mem_longSentencesFrom rest (i + 1) e he).2.1
      show i + 1 < e.position
      omega
    · rw [if_neg hc]
      simpa using ih (i + 1)

/-- C5: the long-sentence list of `analyzeReadability` has at most 5
entries; positions are strictly increasing (order of appearance, 1-based);
every entry records a sentence of more than 25 words together with its
word count and its display text, which is the raw sentence unless that
exceeds 150 characters, in which case it is truncated and carries a
trailing ellipsis. -/
theorem c5_long_sentences (syl : List Char → Nat) (text : String) :
    (analyzeReadability syl text).longSentences.length ≤ 5 ∧
    List.Pairwise (fun a b => a.position < b.position)
      (analyzeReadability syl text).longSentences ∧
    ∀ e ∈ (analyzeReadability syl text).longSentences,
      25 < e.wordCount ∧
      ∃ s, (splitIntoSentences text).get? (e.position - 1) = some s ∧
        e.wordCount = countWords s ∧ e.text = displayTextOf s ∧
        (150 < s.data.length → ∃ t : String, e.text = t ++ "...") := by
  by_cases h1 : (splitIntoSentences text).length = 0
  · unfold analyzeReadability
    rw [if_pos h1]
    exact ⟨by norm_num [emptyMetrics], by simp [emptyMetrics], by simp [emptyMetrics]⟩
  · by_cases h2 : (wordsOf text).length = 0
    · unfold analyzeReadability
      rw [if_neg h1, if_pos h2]
      exact ⟨by norm_num [emptyMetrics], by simp [emptyMetrics], by simp [emptyMetrics]⟩
    · unfold analyzeReadability
      rw [if_neg h1, if_neg h2]
      refine ⟨?_, ?_, ?_⟩
      · show ((longSentencesOf (splitIntoSentences text)).take 5).length ≤ 5
        simp [List.length_take]
      · show List.Pairwise _ ((longSentencesOf (splitIntoSentences text)).take 5)
        exact List.Pairwise.sublist (List.take_sublist _ _)
          (pairwise_longSentencesFrom (splitIntoSentences text) 0)
      · intro e he
        have he2 : e ∈ longSentencesOf (splitIntoSentences text) :=
          List.mem_of_mem_take he
        obtain ⟨hwc, hpos, s, hget, htext, hcount⟩ :=
          mem_longSentencesFrom (splitIntoSentences text) 0 e he2
        refine ⟨hwc, s, by simpa using hget, hcount, htext, ?_⟩
        intro hlong
        refine ⟨String.mk (truncTo147 s.data), ?_⟩
        rw [htext]
        unfold displayTextOf
        rw [if_pos (by exact_mod_cast hlong)]
        rw [show ("..." : String) = String.mk ['.', '.', '.'] from rfl, mk_append]

theorem c5_long_sentences_witness :
    (analyzeReadability countSyllablesFallback
      "b b b b b b b b b b b b b b b b b b b b b b b b b b.").longSentences.length ≤ 5 ∧
    25 < (⟨"b b b b b b b b b b b b b b b b b b b b b b b b b b.", 26, 1⟩ :
      LongSentence).wordCount :=
  ⟨(c5_long_sentences countSyllablesFallback
      "b b b b b b b b b b b b b b b b b b b b b b b b b b.").1,
   ((c5_long_sentences countSyllablesFallback
      "b b b b b b b b b b b b b b b b b b b b b b b b b b.").2.2
      ⟨"b b b b b b b b b b b b b b b b b b b b b b b b b b.", 26, 1⟩
      (by rw [longSentences_witness_eval]; exact List.mem_singleton.mpr rfl)).1⟩
